import Mathlib

/-! fwsyslog-convert: normalisation, field extraction, record assembly, resolver cache

A shallow embedding of `src/fwsyslog-convert.cpp`.

* A `std::string` (and a NUL-terminated `char*`) is a `List Char`.
* A `string::size_type` result of `find` is an `Option Nat`: `none` stands for
  `string::npos`.  The only arithmetic the program does on such a value is `+1`,
  and `npos + 1` wraps to `0` (`succWrap`).
* `substr`, `assign` and `replace` throw `std::out_of_range` when the start
  position lies beyond the end of the string: they return `none` there.
* The `while` loop of `stringReplace` is run with fuel.
* `gethostbyaddr` is an oracle `dns n a`: the outcome of the `n`-th reverse
  lookup of the run, asked for address `a` (`none` is a `NULL` result).
* The two overloads of `getField` are `getFieldStr` (by key) and `getFieldInt`
  (by field number).  The body of the read loop of `main` is cut into
  `normalize` (lines 160-172), `assemble` (lines 174-228) and `outputRow`
  (lines 230-242); `processLine` is one round of the loop.
-/

namespace FwSyslog

/-- A string of the program. -/
abbrev Str := List Char

/-- The constant `MAXIMUM_CACHED_HOSTNAMES` (line 49). -/
def MAXIMUM_CACHED_HOSTNAMES : Int := 15

/-- The constant `REMOVE_FIELD_TAGS` (line 51). -/
def REMOVE_FIELD_TAGS : Int := 1

/-! ## The `std::string` operations the program uses -/

/-- Scan for `pat` in a suffix whose first character has index `i` in the whole
string: the index of the first position where `pat` starts, if any. -/
def findFrom (pat : Str) : Str → Nat → Option Nat
  | [], i => if pat.isEmpty then some i else none
  | c :: cs, i => if pat.isPrefixOf (c :: cs) then some i else findFrom pat cs (i + 1)

/-- The call `s.find(pat, pos)`: the least index `i ≥ pos` at which `pat` occurs in
`s`, or `none` (`npos`). -/
def find (s pat : Str) (pos : Nat) : Option Nat :=
  if pos ≤ s.length then findFrom pat (s.drop pos) pos else none

/-- The sum `p + 1` on `size_type`: `npos + 1` wraps around to `0`. -/
def succWrap : Option Nat → Nat
  | some p => p + 1
  | none => 0

/-- The call `s.substr(pos, len)`, also `assign(s, pos, len)`: the characters
`[pos, pos + len)` cut at the end of `s`; a `len` of `npos` takes all that is left;
`pos > s.size()` throws. -/
def substr (s : Str) (pos : Nat) (len : Option Nat) : Option Str :=
  if pos ≤ s.length then
    match len with
    | some n => some ((s.drop pos).take n)
    | none => some (s.drop pos)
  else none

/-- The call `s.replace(pos, len, r)`: the `len` characters from `pos` give way to
`r`; `pos > s.size()` throws. -/
def replace (s : Str) (pos len : Nat) (r : Str) : Option Str :=
  if pos ≤ s.length then some (s.take pos ++ r ++ s.drop (pos + len)) else none

/-! ## The helpers of the source -/

/-- The `while` loop of `stringReplace` (lines 251-254), from position `pos`;
`none` when the fuel is used up before the loop ends (or `replace` throws). -/
def stringReplaceLoop : Nat → Str → Str → Str → Nat → Option Str
  | 0, _, _, _, _ => none
  | fuel + 1, inString, searchString, replaceString, pos =>
    match find inString searchString pos with
    | none => some inString
    | some p =>
      (replace inString p searchString.length replaceString).bind fun s =>
        stringReplaceLoop fuel s searchString replaceString (p + 1)

/-- The function `stringReplace` (lines 249-256).  The loop gets `size + 1` rounds:
as many as it can take when the replacement is not longer than the non-empty
search string, which is so at each call in `main`. -/
def stringReplace (inString searchString replaceString : Str) : Option Str :=
  stringReplaceLoop (inString.length + 1) inString searchString replaceString 0

/-- The function `stringFind` (lines 258-260): the position of the first
occurrence, and `0` when there is none. -/
def stringFind (inString searchString : Str) : Nat :=
  match find inString searchString 0 with
  | some p => p
  | none => 0

/-- The function `getField(string, string)`, by searching (lines 262-275). -/
def getFieldStr (inString field : Str) : Option Str :=
  match find inString field 0 with
  | some startPos =>
    (substr inString startPos (some inString.length)).bind fun fnd =>
      let endPos := find fnd [','] 0
      if REMOVE_FIELD_TAGS > 0 then
        (substr inString startPos endPos).bind fun seg =>
          substr seg (succWrap (find seg ['='] 0)) (some seg.length)
      else substr inString startPos endPos
  | none => some []

/-- The `for` loop of `getField(string, int)` (lines 280-281), `x` rounds. -/
def dropFields : Nat → Str → Option Str
  | 0, f => some f
  | x + 1, f => (substr f (succWrap (find f [','] 0)) (some f.length)).bind (dropFields x)

/-- The function `getField(string, int)`, by field number (lines 277-283); the loop
runs `fieldNumber` times, and not at all for a negative `fieldNumber`. -/
def getFieldInt (inString : Str) (fieldNumber : Int) : Option Str :=
  (dropFields fieldNumber.toNat inString).bind fun f => substr f 0 (find f [','] 0)

/-! ## The hostname cache -/

/-- A node of the linked list `struct ip_table` (lines 67-71); the `next` pointer
is the tail of the Lean list. -/
structure ip_table where
  ip_address : Str
  hostname : Str
  deriving DecidableEq, Repr

/-- The globals of `nslookup`: the list `ipt_top`, the counter `list_size`
(a C `int`, here without a bound), and the number of `gethostbyaddr` calls made so
far, which the source does not keep. -/
structure Resolver where
  ipt_top : List ip_table
  list_size : Int
  lookups : Nat
  deriving DecidableEq, Repr

/-- The oracle for `gethostbyaddr`: the outcome of the `n`-th call for an address. -/
abbrev Dns := Nat → Str → Option Str

/-- The cache scan (lines 296-300): the hostname of the first node for `a`. -/
def scanCache : List ip_table → Str → Option Str
  | [], _ => none
  | node :: next, a => if node.ip_address = a then some node.hostname else scanCache next a

/-- The eviction loop (lines 330-338) with its counter `x`; a node that the loop
deletes leaves the list. -/
def evictLoop (list_size : Int) : Int → List ip_table → List ip_table
  | _, [] => []
  | x, node :: next =>
    if x > list_size then
      if x > MAXIMUM_CACHED_HOSTNAMES then evictLoop list_size (x + 1) next
      else node :: evictLoop list_size (x + 1) next
    else node :: evictLoop list_size x next

/-- The function `nslookup` (lines 285-342); `none` is the `NULL` pointer. -/
def nslookup (dns : Dns) (st : Resolver) : Option Str → Option Str × Resolver
  | none => (none, st)
  | some a =>
    match scanCache st.ipt_top a with
    | some h => (some h, st)
    | none =>
      let hostname := match dns st.lookups a with
        | some h_name => h_name
        | none => a
      let top := { ip_address := a, hostname := hostname } :: st.ipt_top
      let size := st.list_size + 1
      let top := if st.list_size > MAXIMUM_CACHED_HOSTNAMES then evictLoop size 0 top else top
      (some hostname, { ipt_top := top, list_size := size, lookups := st.lookups + 1 })

/-! ## The body of the read loop of `main` -/

/-- Lines 160-172 of `main`: the six rewrites that turn the raw line into the
comma-separated line `ins`. -/
def normalize (line : Str) : Option Str :=
  (stringReplace line "  ".toList " ".toList).bind fun ins1 =>
  (stringReplace ins1 " ".toList ",".toList).bind fun ins2 =>
  (stringReplace ins2 ",Endpoint,Mapper".toList " Endpoint Mapper".toList).bind fun ins3 =>
  (stringReplace ins3 "Network,Time".toList "Network Time".toList).bind fun ins4 =>
  (stringReplace ins4 ",src,zone".toList ",src_zone".toList).bind fun ins5 =>
  stringReplace ins5 ",dst,zone".toList ",dst_zone".toList

/-- The string `delim` (lines 144 and 152). -/
def delim : Str := [',']

/-- Lines 199-201 and 216-218 of `main`: fifty characters of `cstr` are copied
into `buf`, and `strcpy` copies `buf` up to its first NUL into `b`.  A `cstr`
shorter than fifty characters brings its own terminator, and `b` is `cstr`; for
a longer one `b` depends on what the buffer held before, which is not modelled
(`none`). -/
def copyToBuf (cstr : Str) : Option Str :=
  if cstr.length < 50 then some cstr else none

/-- Lines 197-208 and 214-225 of `main`: the address column, resolved through
`nslookup` when the flag is set (`name` falls back to `buf` on `NULL`). -/
def addressColumn (flag : Bool) (dns : Dns) (st : Resolver) (cstr : Str) :
    Option (Str × Resolver) :=
  if flag then
    (copyToBuf cstr).bind fun b =>
      match nslookup dns st (some b) with
      | (some name, st1) => some (name, st1)
      | (none, st1) => some (b, st1)
  else some (cstr, st)

/-- The statement `sout += delim + col` of `main`. -/
def addColumn (sout col : Str) : Str := sout ++ (delim ++ col)

/-- Lines 174-194 of `main`: date, time and the five keyed columns up to the
action. -/
def assembleHead (ins : Str) : Option Str :=
  (getFieldInt ins 0).bind fun month =>
  (getFieldInt ins 1).bind fun day =>
  (getFieldInt ins 2).bind fun time =>
  (getFieldStr ins "policy_id".toList).bind fun policy =>
  (getFieldStr ins "service".toList).bind fun service =>
  (getFieldStr ins "src_zone".toList).bind fun srcZone =>
  (getFieldStr ins "dst_zone".toList).bind fun dstZone =>
  (getFieldStr ins "action".toList).bind fun action =>
  some (addColumn (addColumn (addColumn (addColumn (addColumn (addColumn (addColumn
    month day) time) policy) service) srcZone) dstZone) action)

/-- Lines 174-228 of `main`: the record `sout` assembled from the normalized line
`ins`, and the cache after it. -/
def assemble (res_src_flag res_dst_flag : Bool) (dns : Dns) (st : Resolver) (ins : Str) :
    Option (Str × Resolver) :=
  (assembleHead ins).bind fun sout =>
  (getFieldStr ins "src=".toList).bind fun cstr =>
  (addressColumn res_src_flag dns st cstr).bind fun src =>
  (getFieldStr ins "src_port".toList).bind fun srcPort =>
  (getFieldStr ins "dst=".toList).bind fun cstr2 =>
  (addressColumn res_dst_flag dns src.2 cstr2).bind fun dst =>
  (getFieldStr ins "dst_port".toList).bind fun dstPort =>
  some (addColumn (addColumn (addColumn (addColumn sout src.1) srcPort) dst.1) dstPort, dst.2)

/-- Lines 230-242 of `main`: the row written for `ins`, if one is written. -/
def outputRow (ins sout : Str) : Option Str :=
  if stringFind ins ",Log,statistics;".toList = 0 then some sout else none

/-- One round of the read loop for a non-empty line (lines 160-242): the row
written, if any, and the cache after the round. -/
def processLine (res_src_flag res_dst_flag : Bool) (dns : Dns) (st : Resolver) (line : Str) :
    Option (Option Str × Resolver) :=
  (normalize line).bind fun ins =>
  (assemble res_src_flag res_dst_flag dns st ins).bind fun r =>
  some (outputRow ins r.1, r.2)

/-- The cache at the start of a run (lines 63-64). -/
def Resolver.init : Resolver := { ipt_top := [], list_size := 0, lookups := 0 }

/-- A `gethostbyaddr` that always fails. -/
def noDns : Dns := fun _ _ => none

/-! ## Definitions used in the statements -/

/-- The part of `s` before its first `c` (all of `s` when it has no `c`). -/
def untilChar (c : Char) (s : Str) : Str := s.takeWhile (fun x => x != c)

/-- The part of `s` after its first `c`, and `s` itself when it has no `c`: the
value of `s.substr(s.find(c)+1, s.size())`. -/
def afterChar (c : Char) (s : Str) : Str :=
  if c ∈ s then (s.dropWhile (fun x => x != c)).drop 1 else s

/-- The twelve extractions of `main` (lines 175-228) in the order of the record,
as they are when no hostname is resolved. -/
def columns (ins : Str) : List (Option Str) :=
  [getFieldInt ins 0, getFieldInt ins 1, getFieldInt ins 2,
   getFieldStr ins "policy_id".toList, getFieldStr ins "service".toList,
   getFieldStr ins "src_zone".toList, getFieldStr ins "dst_zone".toList,
   getFieldStr ins "action".toList, getFieldStr ins "src=".toList,
   getFieldStr ins "src_port".toList, getFieldStr ins "dst=".toList,
   getFieldStr ins "dst_port".toList]

/-- The nine keyed columns of the record: the position in the record and the key
`main` searches for (lines 182-228). -/
def keyedColumns : List (Nat × Str) :=
  [(3, "policy_id".toList), (4, "service".toList), (5, "src_zone".toList),
   (6, "dst_zone".toList), (7, "action".toList), (8, "src=".toList),
   (9, "src_port".toList), (10, "dst=".toList), (11, "dst_port".toList)]

/-- The search strings of the four repairs that follow the two space rewrites
(lines 165-172 of `main`). -/
def rewritePatterns : List Str :=
  [",Endpoint,Mapper".toList, "Network,Time".toList, ",src,zone".toList, ",dst,zone".toList]

/-- The text `key=value`. -/
def keyed (k v : Str) : Str := k ++ '=' :: v

/-- The words that a value of the end-to-end scenario must not hold. -/
def forbiddenWords : List Str :=
  ["policy_id".toList, "service".toList, "src".toList, "dst".toList, "action".toList,
   "Endpoint".toList, "Network".toList]

/-- A value of the end-to-end scenario: no space, no comma, no `=`, none of the
forbidden words. -/
def plainValue (v : Str) : Prop :=
  ' ' ∉ v ∧ ',' ∉ v ∧ '=' ∉ v ∧ ∀ w ∈ forbiddenWords, ¬ w <:+: v

/-- The twelve fields of a line of the device, in the order of the line: date and
time by position, the other nine as `key=value`. -/
def deviceFields (m d t p s sz dz a src sp dst dp : Str) : List Str :=
  [m, d, t, keyed "policy_id".toList p, keyed "service".toList s,
   keyed "src_zone".toList sz, keyed "dst_zone".toList dz, keyed "action".toList a,
   keyed "src".toList src, keyed "src_port".toList sp, keyed "dst".toList dst,
   keyed "dst_port".toList dp]

/-! ## Runs of calls and of lines -/

/-- A run of calls of `nslookup`, one after the other: the cache after the last. -/
def nslookups (dns : Dns) : Resolver → List (Option Str) → Resolver
  | st, [] => st
  | st, a :: rest => nslookups dns (nslookup dns st a).2 rest

/-- The number of calls in a run that find no entry in the cache (a `NULL`
address returns before the cache is scanned and is not counted). -/
def missCount (dns : Dns) : Resolver → List (Option Str) → Nat
  | _, [] => 0
  | st, none :: rest => missCount dns st rest
  | st, some a :: rest =>
    (if scanCache st.ipt_top a = none then 1 else 0) +
      missCount dns (nslookup dns st (some a)).2 rest

/-- The read loop of `main` (lines 156-243) over the lines of the input file, each
shorter than the buffer `in`: the rows written, in the order in which they are
written.  After the last line `getline` leaves `in` empty, and an empty `in`, at
the end of the file or at an empty line, ends the run (`exit(0)`, line 159). -/
def run (res_src_flag res_dst_flag : Bool) (dns : Dns) : Resolver → List Str → Option (List Str)
  | _, [] => some []
  | st, line :: rest =>
    if line = [] then some []
    else
      (processLine res_src_flag res_dst_flag dns st line).bind fun r =>
        (run res_src_flag res_dst_flag dns r.2 rest).map fun rows =>
          match r.1 with
          | some row => row :: rows
          | none => rows

/-! ## Replacing all occurrences -/

/-- Replace the occurrences of `pat` by `r`, from left to right and without
overlap, `n` characters deep: what the loop of `stringReplace` computes when the
first character of `pat` does not come back in `r` after its first character (so
for the four repairs of `main`). -/
def replaceAllFuel (pat r : Str) : Nat → Str → Str
  | 0, s => s
  | _ + 1, [] => []
  | n + 1, c :: s =>
    if pat.isPrefixOf (c :: s) then r ++ replaceAllFuel pat r n ((c :: s).drop pat.length)
    else c :: replaceAllFuel pat r n s

/-- Replace the occurrences of `pat` by `r`, from left to right, without overlap. -/
def replaceAll (pat r s : Str) : Str := replaceAllFuel pat r s.length s

/-- The line with a comma for each space (the second rewrite of `main`). -/
def commaForm (s : Str) : Str := s.map fun c => if c = ' ' then ',' else c

/-- A character with the two separators, space and comma, read as `_`: the
rewrites of `main` change a character only within these three. -/
def hard (c : Char) : Char := if c = ' ' ∨ c = ',' then '_' else c

/-- No occurrence of `pat` in `A ++ B` starts in `A` and ends in `B`. -/
def noCross (pat A B : Str) : Prop :=
  ∀ j, j < A.length → pat <+: (A ++ B).drop j → j + pat.length ≤ A.length

/-- The strings that `hard` maps, character by character, to `u`. -/
def softForms : Str → List Str
  | [] => [[]]
  | c :: u =>
    (if c = '_' then [' ', ',', '_'] else [c]).flatMap fun a => (softForms u).map (List.cons a)

/-- The repair of `Endpoint Mapper` (line 165) as a replace-all. -/
def fixEndpoint (s : Str) : Str :=
  replaceAll ",Endpoint,Mapper".toList " Endpoint Mapper".toList s

/-- The repair of `Network Time` (line 168) as a replace-all. -/
def fixNetwork (s : Str) : Str := replaceAll "Network,Time".toList "Network Time".toList s

/-- The repair of the source zone key (line 171) as a replace-all. -/
def fixSrcZone (s : Str) : Str := replaceAll ",src,zone".toList ",src_zone".toList s

/-- The repair of the destination zone key (line 172) as a replace-all. -/
def fixDstZone (s : Str) : Str := replaceAll ",dst,zone".toList ",dst_zone".toList s

/-- The four repairs of `main` (lines 165-172), one after the other. -/
def repairs (s : Str) : Str := fixDstZone (fixSrcZone (fixNetwork (fixEndpoint s)))

/-- A text that is empty or starts with a comma: what may follow a field. -/
def commaLed (s : Str) : Prop := s = [] ∨ ∃ q, s = ',' :: q

/-! ## The string operations -/

theorem untilChar_nil (c : Char) : untilChar c [] = [] := rfl

theorem untilChar_cons (c a : Char) (s : Str) :
    untilChar c (a :: s) = if a = c then [] else a :: untilChar c s := by
  by_cases h : a = c <;> simp [untilChar, List.takeWhile_cons, h]

theorem afterChar_cons (c a : Char) (s : Str) :
    afterChar c (a :: s) = if a = c then s else if c ∈ s then afterChar c s else a :: s := by
  by_cases h : a = c
  · simp [afterChar, List.dropWhile_cons, h]
  · have h2 : ¬ c = a := fun e => h e.symm
    by_cases hm : c ∈ s <;> simp [afterChar, List.dropWhile_cons, h, h2, hm]

theorem not_mem_untilChar (c : Char) (s : Str) : c ∉ untilChar c s := by
  induction s with
  | nil => simp [untilChar]
  | cons a s ih =>
    rw [untilChar_cons]
    by_cases h : a = c
    · simp [h]
    · have h2 : ¬ c = a := fun e => h e.symm
      simp [h, h2, ih]

theorem untilChar_of_not_mem (c : Char) (s : Str) (h : c ∉ s) : untilChar c s = s := by
  induction s with
  | nil => rfl
  | cons a s ih =>
    simp only [List.mem_cons, not_or] at h
    rw [untilChar_cons, if_neg (fun e => h.1 e.symm), ih h.2]

theorem afterChar_of_not_mem (c : Char) (s : Str) (h : c ∉ s) : afterChar c s = s := by
  simp [afterChar, h]

theorem untilChar_append_cons (c : Char) (x y : Str) (h : c ∉ x) :
    untilChar c (x ++ c :: y) = x := by
  induction x with
  | nil => simp [untilChar_cons]
  | cons a x ih =>
    simp only [List.mem_cons, not_or] at h
    rw [List.cons_append, untilChar_cons, if_neg (fun e => h.1 e.symm), ih h.2]

theorem afterChar_append_cons (c : Char) (x y : Str) (h : c ∉ x) :
    afterChar c (x ++ c :: y) = y := by
  induction x with
  | nil => simp [afterChar_cons]
  | cons a x ih =>
    simp only [List.mem_cons, not_or] at h
    rw [List.cons_append, afterChar_cons, if_neg (fun e => h.1 e.symm), ih h.2]
    simp

/-- A string with a `c` splits at its first `c`. -/
theorem split_at_first (c : Char) (s : Str) (h : c ∈ s) :
    s = untilChar c s ++ c :: afterChar c s := by
  induction s with
  | nil => simp at h
  | cons a s ih =>
    rw [untilChar_cons, afterChar_cons]
    by_cases ha : a = c
    · simp [ha]
    · have hs : c ∈ s := by
        rcases List.mem_cons.1 h with e | e
        · exact absurd e.symm ha
        · exact e
      simp only [ha, if_false, hs, if_true, List.cons_append]
      rw [← ih hs]

theorem afterChar_subset (c : Char) (s : Str) : ∀ x ∈ afterChar c s, x ∈ s := by
  intro x hx
  by_cases h : c ∈ s
  · rw [split_at_first c s h]
    simp [hx]
  · rwa [afterChar_of_not_mem c s h] at hx

theorem findFrom_single (c : Char) (s : Str) (i : Nat) :
    findFrom [c] s i = if c ∈ s then some (i + (untilChar c s).length) else none := by
  induction s generalizing i with
  | nil => simp [findFrom]
  | cons a s ih =>
    rw [findFrom, untilChar_cons]
    by_cases h : a = c
    · simp [h, List.isPrefixOf]
    · have h2 : ¬ c = a := fun e => h e.symm
      simp only [List.isPrefixOf, h2, beq_iff_eq, Bool.false_and, Bool.and_true, if_false, ih,
        List.mem_cons, false_or, h, List.length_cons]
      by_cases hm : c ∈ s <;> simp [hm]; omega

theorem find_single (c : Char) (s : Str) :
    find s [c] 0 = if c ∈ s then some (untilChar c s).length else none := by
  simp [find, findFrom_single]

theorem exists_split (c : Char) (s : Str) (h : c ∈ s) :
    ∃ u v, c ∉ u ∧ s = u ++ c :: v :=
  ⟨untilChar c s, afterChar c s, not_mem_untilChar c s, split_at_first c s h⟩

/-- The expression `f.substr(0, f.find(c))`. -/
theorem substr_until (c : Char) (f : Str) : substr f 0 (find f [c] 0) = some (untilChar c f) := by
  rw [find_single]
  by_cases h : c ∈ f
  · obtain ⟨u, v, hu, rfl⟩ := exists_split c f h
    simp [h, substr, untilChar_append_cons c u v hu]
  · simp [h, substr, untilChar_of_not_mem c f h]

/-- The expression `f.substr(f.find(c)+1, f.size())`. -/
theorem substr_after (c : Char) (f : Str) :
    substr f (succWrap (find f [c] 0)) (some f.length) = some (afterChar c f) := by
  rw [find_single]
  by_cases h : c ∈ f
  · obtain ⟨u, v, hu, rfl⟩ := exists_split c f h
    have hd : List.drop (u.length + 1) (u ++ c :: v) = v := by
      rw [List.drop_append_eq_append_drop]
      simp [List.drop_of_length_le]
    simp [succWrap, substr, untilChar_append_cons c u v hu, afterChar_append_cons c u v hu, hd]
    omega
  · simp [h, succWrap, substr, afterChar_of_not_mem c f h]

/-! ## `find` -/

theorem findFrom_none_iff (pat s : Str) (i : Nat) : findFrom pat s i = none ↔ ¬ pat <:+: s := by
  induction s generalizing i with
  | nil => cases pat <;> simp [findFrom]
  | cons a s ih =>
    rw [findFrom, List.infix_cons_iff]
    by_cases h : pat.isPrefixOf (a :: s) = true
    · have h2 := List.isPrefixOf_iff_prefix.1 h
      simp [h, h2]
    · have h2 : ¬ pat <+: a :: s := fun e => h (List.isPrefixOf_iff_prefix.2 e)
      simp [h, h2, ih]

/-- What `findFrom` finds is an occurrence. -/
theorem findFrom_some (pat s : Str) (i j : Nat) (h : findFrom pat s i = some j) :
    ∃ x y, s = x ++ (pat ++ y) ∧ j = i + x.length := by
  induction s generalizing i with
  | nil =>
    cases pat with
    | nil => exact ⟨[], [], rfl, by simpa [findFrom] using h.symm⟩
    | cons b pat => simp [findFrom] at h
  | cons a s ih =>
    rw [findFrom] at h
    by_cases hp : pat.isPrefixOf (a :: s) = true
    · obtain ⟨y, hy⟩ := List.isPrefixOf_iff_prefix.1 hp
      refine ⟨[], y, by simpa using hy.symm, ?_⟩
      simpa [hp] using h.symm
    · simp only [hp, if_false] at h
      obtain ⟨x, y, hs, hj⟩ := ih (i + 1) h
      refine ⟨a :: x, y, by simp [hs], ?_⟩
      simp only [List.length_cons]
      omega

/-- The first occurrence is the one `findFrom` finds. -/
theorem findFrom_first (pat x y : Str) (i : Nat)
    (h : ∀ k, k < x.length → ¬ pat <+: (x ++ (pat ++ y)).drop k) :
    findFrom pat (x ++ (pat ++ y)) i = some (i + x.length) := by
  induction x generalizing i with
  | nil =>
    cases hc : pat ++ y with
    | nil =>
      have hp : pat = [] := (List.append_eq_nil.1 hc).1
      simp [findFrom, hp]
    | cons c cs =>
      have hp : pat.isPrefixOf (c :: cs) = true :=
        List.isPrefixOf_iff_prefix.2 ⟨y, hc⟩
      simp [findFrom, hc, hp]
  | cons a x ih =>
    have h0 : ¬ pat.isPrefixOf (a :: (x ++ (pat ++ y))) = true := fun e =>
      h 0 (by simp) (by simpa using List.isPrefixOf_iff_prefix.1 e)
    have hk : ∀ k, k < x.length → ¬ pat <+: (x ++ (pat ++ y)).drop k := fun k hk =>
      by simpa using h (k + 1) (by simpa using hk)
    rw [List.cons_append, findFrom, if_neg h0, ih (i + 1) hk]
    simp only [List.length_cons]
    congr 1
    omega

theorem find_zero (s pat : Str) : find s pat 0 = findFrom pat s 0 := by
  simp [find]

theorem find_none_iff (s pat : Str) : find s pat 0 = none ↔ ¬ pat <:+: s := by
  rw [find_zero, findFrom_none_iff]

theorem find_some (s pat : Str) (pos p : Nat) (h : find s pat pos = some p) :
    pos ≤ p ∧ p + pat.length ≤ s.length ∧ pat <+: s.drop p := by
  unfold find at h
  by_cases hl : pos ≤ s.length
  · simp only [hl, if_true] at h
    obtain ⟨x, y, hs, hj⟩ := findFrom_some pat _ pos p h
    have hlen : (List.drop pos s).length = x.length + (pat.length + y.length) := by
      rw [hs]; simp
    rw [List.length_drop] at hlen
    refine ⟨by omega, by omega, ?_⟩
    have hd : s.drop p = (s.drop pos).drop x.length := by
      rw [List.drop_drop, hj]
    rw [hd, hs, List.drop_left]
    exact List.prefix_append _ _
  · simp [hl] at h

/-! ## The two `getField` functions in closed form -/

theorem substr_drop (s : Str) (i : Nat) (len : Option Nat) (h : i ≤ s.length) :
    substr s i len = substr (s.drop i) 0 len := by
  simp [substr, h]

theorem dropFields_eq (n : Nat) (f : Str) :
    dropFields n f = some ((afterChar ',')^[n] f) := by
  induction n generalizing f with
  | zero => rfl
  | succ n ih => simp [dropFields, substr_after, ih]

/-- The function `getField(string, int)` never throws: it drops `fieldNumber`
times what comes up to the first comma, when there is a comma, and returns what
is left up to the first comma. -/
theorem getFieldInt_eq (line : Str) (i : Int) :
    getFieldInt line i = some (untilChar ',' ((afterChar ',')^[i.toNat] line)) := by
  simp [getFieldInt, dropFields_eq, substr_until]

/-- The function `getField(string, string)` never throws: from the first
occurrence of the key it takes what comes up to the next comma, and of that what
follows the first `=`, when there is one. -/
theorem getFieldStr_eq (line key : Str) :
    getFieldStr line key =
      match find line key 0 with
      | some i => some (afterChar '=' (untilChar ',' (line.drop i)))
      | none => some [] := by
  unfold getFieldStr
  cases h : find line key 0 with
  | none => rfl
  | some i =>
    have hi : i ≤ line.length := by
      have := (find_some line key 0 i h).2.1
      omega
    have h1 : substr line i (some line.length) = some (line.drop i) := by
      simp [substr, hi, List.take_of_length_le]
    have h2 : substr line i (find (line.drop i) [','] 0) = some (untilChar ',' (line.drop i)) := by
      rw [substr_drop line i _ hi, substr_until]
    simp [h1, h2, REMOVE_FIELD_TAGS, substr_after]

theorem getFieldInt_comma_free (line : Str) (i : Int) :
    ∃ v, getFieldInt line i = some v ∧ ',' ∉ v :=
  ⟨_, getFieldInt_eq line i, not_mem_untilChar ',' _⟩

theorem getFieldStr_comma_free (line key : Str) :
    ∃ v, getFieldStr line key = some v ∧ ',' ∉ v := by
  rw [getFieldStr_eq]
  cases find line key 0 with
  | none => exact ⟨[], rfl, by simp⟩
  | some i =>
    exact ⟨_, rfl, fun h => not_mem_untilChar ',' _ (afterChar_subset _ _ _ h)⟩

/-! ## Splitting on a character -/

theorem splitOn_eq (c : Char) (s : Str) :
    s.splitOn c = untilChar c s :: (if c ∈ s then (afterChar c s).splitOn c else []) := by
  induction s with
  | nil => simp [List.splitOn, List.splitOnP_nil, untilChar]
  | cons a s ih =>
    have hs : (a :: s).splitOn c =
        if (a == c) = true then [] :: s.splitOn c
        else (s.splitOn c).modifyHead (List.cons a) := List.splitOnP_cons _ a s
    rw [hs, untilChar_cons, afterChar_cons]
    by_cases h : a = c
    · simp [h]
    · have h2 : ¬ c = a := fun e => h e.symm
      rw [ih]
      by_cases hm : c ∈ s <;> simp [h, h2, hm]

theorem count_of_mem (c : Char) (s : Str) (h : c ∈ s) :
    s.count c = (afterChar c s).count c + 1 := by
  obtain ⟨u, v, hu, rfl⟩ := exists_split c s h
  rw [afterChar_append_cons c u v hu]
  simp [List.count_append, List.count_eq_zero.2 hu]

/-! ## The loop of `stringReplace` -/

theorem find_at (x y pat : Str) : find (x ++ y) pat x.length = findFrom pat y x.length := by
  simp [find]

theorem find_after (x y pat : Str) (c : Char) :
    find (x ++ c :: y) pat (x.length + 1) = findFrom pat y (x.length + 1) := by
  have h : x ++ c :: y = (x ++ [c]) ++ y := by simp
  have h2 := find_at (x ++ [c]) y pat
  rw [← h] at h2
  simpa using h2

/-- The loop ends when the search string does not occur from `pos` on. -/
theorem loop_done (fuel : Nat) (s pat r : Str) (pos : Nat) (h : find s pat pos = none) :
    stringReplaceLoop (fuel + 1) s pat r pos = some s := by
  simp [stringReplaceLoop, h]

/-- A search string that does not occur leaves the string as it is. -/
theorem stringReplace_noop (s pat r : Str) (h : ¬ pat <:+: s) : stringReplace s pat r = some s :=
  loop_done _ s pat r 0 ((find_none_iff s pat).2 h)

/-- The loop passes a position at which the search string does not start. -/
theorem loop_skip (fuel : Nat) (x y pat r : Str) (c : Char)
    (h : pat.isPrefixOf (c :: y) = false) :
    stringReplaceLoop fuel (x ++ c :: y) pat r x.length =
      stringReplaceLoop fuel ((x ++ [c]) ++ y) pat r (x ++ [c]).length := by
  have e : (x ++ [c]) ++ y = x ++ c :: y := by simp
  rw [e]
  cases fuel with
  | zero => rfl
  | succ fuel =>
    have hf : find (x ++ c :: y) pat x.length = find (x ++ c :: y) pat (x ++ [c]).length := by
      rw [find_at, List.length_append, List.length_singleton, find_after, findFrom, h]
      simp
    simp only [stringReplaceLoop, hf]

/-- The loop passes a stretch without the first character of the search string. -/
theorem loop_skip_token (fuel : Nat) (x tok z r ps : Str) (p0 : Char) (h : p0 ∉ tok) :
    stringReplaceLoop fuel (x ++ (tok ++ z)) (p0 :: ps) r x.length =
      stringReplaceLoop fuel ((x ++ tok) ++ z) (p0 :: ps) r (x ++ tok).length := by
  induction tok generalizing x with
  | nil => simp
  | cons c tok ih =>
    simp only [List.mem_cons, not_or] at h
    have hc : (p0 :: ps).isPrefixOf (c :: (tok ++ z)) = false := by
      simp [List.isPrefixOf, h.1]
    rw [List.cons_append, loop_skip fuel x _ _ r c hc, ih (x ++ [c]) h.2]
    simp

/-- One round of the loop at a position where the search string starts. -/
theorem loop_hit (fuel : Nat) (x z pat r : Str) :
    stringReplaceLoop (fuel + 1) (x ++ (pat ++ z)) pat r x.length =
      stringReplaceLoop fuel (x ++ (r ++ z)) pat r (x.length + 1) := by
  have hf : find (x ++ (pat ++ z)) pat x.length = some x.length := by
    rw [find_at]
    simpa using findFrom_first pat [] z x.length (by simp)
  have hr : replace (x ++ (pat ++ z)) x.length pat.length r = some (x ++ (r ++ z)) := by
    have hd : List.drop (x.length + pat.length) (x ++ (pat ++ z)) = z := by
      rw [← List.append_assoc, ← List.length_append, List.drop_left]
    simp [replace, hd]
  simp [stringReplaceLoop, hf, hr]

/-- Replacing one character by another maps the string, character by character. -/
theorem loop_map (a b : Char) (y : Str) : ∀ (fuel : Nat) (x : Str), y.length < fuel →
    stringReplaceLoop fuel (x ++ y) [a] [b] x.length =
      some (x ++ y.map (fun c => if c = a then b else c)) := by
  induction y with
  | nil =>
    intro fuel x hf
    obtain ⟨n, rfl⟩ : ∃ n, fuel = n + 1 := ⟨fuel - 1, by simp at hf; omega⟩
    rw [loop_done]
    · simp
    · rw [find_at]; rfl
  | cons c y ih =>
    intro fuel x hf
    obtain ⟨n, rfl⟩ : ∃ n, fuel = n + 1 := ⟨fuel - 1, by omega⟩
    simp only [List.length_cons] at hf
    by_cases hc : c = a
    · subst hc
      have h := loop_hit n x y [c] [b]
      simp only [List.singleton_append] at h
      have e : x ++ b :: y = (x ++ [b]) ++ y := by simp
      rw [h, e, ← List.length_singleton b, ← List.length_append, ih n (x ++ [b]) (by omega)]
      simp
    · have hp : List.isPrefixOf [a] (c :: y) = false := by
        simp [List.isPrefixOf]
        exact fun e => hc e.symm
      rw [loop_skip _ x y _ _ c hp, ih _ (x ++ [c]) (by omega)]
      simp [hc]

theorem stringReplace_map (a b : Char) (s : Str) :
    stringReplace s [a] [b] = some (s.map (fun c => if c = a then b else c)) := by
  simpa using loop_map a b s (s.length + 1) [] (by omega)

/-- The loop ends within its fuel when the replacement is not longer than the
non-empty search string. -/
theorem loop_total (pat r : Str) (hp : pat ≠ []) (hr : r.length ≤ pat.length) :
    ∀ (fuel : Nat) (s : Str) (pos : Nat), s.length - pos < fuel →
      ∃ out, stringReplaceLoop fuel s pat r pos = some out := by
  intro fuel
  induction fuel with
  | zero => intro s pos h; omega
  | succ fuel ih =>
    intro s pos h
    cases hf : find s pat pos with
    | none => exact ⟨s, loop_done fuel s pat r pos hf⟩
    | some p =>
      obtain ⟨h1, h2, -⟩ := find_some s pat pos p hf
      have hl : 0 < pat.length := List.length_pos.2 hp
      have hrep : replace s p pat.length r = some (s.take p ++ r ++ s.drop (p + pat.length)) := by
        simp [replace]
        omega
      have hlen : (s.take p ++ r ++ s.drop (p + pat.length)).length - (p + 1) < fuel := by
        simp only [List.length_append, List.length_take, List.length_drop]
        omega
      obtain ⟨out, ho⟩ := ih _ (p + 1) hlen
      exact ⟨out, by simp only [stringReplaceLoop, hf, hrep, Option.some_bind, ho]⟩

theorem stringReplace_total (s pat r : Str) (hp : pat ≠ []) (hr : r.length ≤ pat.length) :
    ∃ out, stringReplace s pat r = some out :=
  loop_total pat r hp hr _ s 0 (by omega)

/-- The six rewrites of `main` always come to an end. -/
theorem normalize_total (line : Str) : ∃ ins, normalize line = some ins := by
  obtain ⟨s1, h1⟩ := stringReplace_total line "  ".toList " ".toList (by decide) (by decide)
  obtain ⟨s2, h2⟩ := stringReplace_total s1 " ".toList ",".toList (by decide) (by decide)
  obtain ⟨s3, h3⟩ := stringReplace_total s2 ",Endpoint,Mapper".toList " Endpoint Mapper".toList
    (by decide) (by decide)
  obtain ⟨s4, h4⟩ := stringReplace_total s3 "Network,Time".toList "Network Time".toList
    (by decide) (by decide)
  obtain ⟨s5, h5⟩ := stringReplace_total s4 ",src,zone".toList ",src_zone".toList
    (by decide) (by decide)
  obtain ⟨s6, h6⟩ := stringReplace_total s5 ",dst,zone".toList ",dst_zone".toList
    (by decide) (by decide)
  exact ⟨s6, by simp only [normalize, h1, h2, h3, h4, h5, h6, Option.some_bind]⟩

/-! ## The record -/

theorem intercalate_cons_cons (c : Char) (a b : Str) (l : List Str) :
    [c].intercalate (a :: b :: l) = a ++ c :: [c].intercalate (b :: l) := by
  simp [List.intercalate, List.intersperse]

theorem intercalate_single (c : Char) (a : Str) : [c].intercalate [a] = a := by
  simp [List.intercalate, List.intersperse]

theorem count_intercalate (c : Char) (l : List Str) (h : ∀ s ∈ l, c ∉ s) :
    ([c].intercalate l).count c = l.length - 1 := by
  induction l with
  | nil => simp [List.intercalate]
  | cons a l ih =>
    cases l with
    | nil => simpa [intercalate_single] using List.count_eq_zero.2 (h a (by simp))
    | cons b l =>
      have ha : a.count c = 0 := List.count_eq_zero.2 (h a (by simp))
      have ih2 := ih (fun s hs => h s (List.mem_cons_of_mem _ hs))
      rw [intercalate_cons_cons, List.count_append, List.count_cons_self, ha, ih2]
      simp

/-- With both flags off `assemble` never fails: its record is the twelve columns
joined by commas, and the cache is untouched. -/
theorem assemble_off (dns : Dns) (st : Resolver) (ins : Str) :
    ∃ cols : List Str, columns ins = cols.map some ∧ cols.length = 12 ∧
      (∀ c ∈ cols, ',' ∉ c) ∧
      assemble false false dns st ins = some ([','].intercalate cols, st) := by
  obtain ⟨f0, h0, c0⟩ := getFieldInt_comma_free ins 0
  obtain ⟨f1, h1, c1⟩ := getFieldInt_comma_free ins 1
  obtain ⟨f2, h2, c2⟩ := getFieldInt_comma_free ins 2
  obtain ⟨f3, h3, c3⟩ := getFieldStr_comma_free ins "policy_id".toList
  obtain ⟨f4, h4, c4⟩ := getFieldStr_comma_free ins "service".toList
  obtain ⟨f5, h5, c5⟩ := getFieldStr_comma_free ins "src_zone".toList
  obtain ⟨f6, h6, c6⟩ := getFieldStr_comma_free ins "dst_zone".toList
  obtain ⟨f7, h7, c7⟩ := getFieldStr_comma_free ins "action".toList
  obtain ⟨f8, h8, c8⟩ := getFieldStr_comma_free ins "src=".toList
  obtain ⟨f9, h9, c9⟩ := getFieldStr_comma_free ins "src_port".toList
  obtain ⟨f10, h10, c10⟩ := getFieldStr_comma_free ins "dst=".toList
  obtain ⟨f11, h11, c11⟩ := getFieldStr_comma_free ins "dst_port".toList
  refine ⟨[f0, f1, f2, f3, f4, f5, f6, f7, f8, f9, f10, f11], ?_, rfl, ?_, ?_⟩
  · simp only [columns, h0, h1, h2, h3, h4, h5, h6, h7, h8, h9, h10, h11, List.map_cons,
      List.map_nil]
  · intro c hc
    simp only [List.mem_cons, List.mem_singleton, List.not_mem_nil, or_false] at hc
    rcases hc with h | h | h | h | h | h | h | h | h | h | h | h <;> subst h <;> assumption
  · simp only [assemble, assembleHead, h0, h1, h2, h3, h4, h5, h6, h7, h8, h9, h10, h11,
      Option.some_bind, addressColumn, addColumn, delim, intercalate_cons_cons,
      intercalate_single, List.append_assoc, List.singleton_append, List.cons_append, List.nil_append, Bool.false_eq_true,
      if_false]

/-- The filter of line 231 holds a row back exactly when the marker is found at a
position other than 0. -/
theorem outputRow_eq_none (ins sout : Str) :
    outputRow ins sout = none ↔ ∃ p, find ins ",Log,statistics;".toList 0 = some (p + 1) := by
  unfold outputRow stringFind
  cases h : find ins ",Log,statistics;".toList 0 with
  | none => simp
  | some q =>
    cases q with
    | zero => simp
    | succ q => simp

/-! ## Occurrences next to a separator -/

/-- A prefix without `c` of `u ++ c :: w` is a prefix of `u`. -/
theorem prefix_before_sep (c : Char) (p u w : Str) (hc : c ∉ p) (h : p <+: u ++ c :: w) :
    p <+: u := by
  induction u generalizing p with
  | nil =>
    rcases List.prefix_cons_iff.1 h with e | ⟨t, e, -⟩
    · simp [e]
    · exact absurd (by simp [e]) hc
  | cons a u ih =>
    rcases List.prefix_cons_iff.1 h with e | ⟨t, e, ht⟩
    · simp [e]
    · subst e
      simp only [List.mem_cons, not_or] at hc
      exact (List.prefix_cons_inj a).2 (ih t hc.2 ht)

/-- A suffix without `c` of `a ++ c :: b` is a suffix of `b`. -/
theorem suffix_after_sep (c : Char) (q a b : Str) (hc : c ∉ q) (h : q <:+ a ++ c :: b) :
    q <:+ b := by
  have h1 : q.reverse <+: b.reverse ++ c :: a.reverse := by
    have := List.reverse_prefix.2 h
    simpa using this
  exact List.reverse_prefix.1 (prefix_before_sep c _ _ _ (by simpa using hc) h1)

/-- An occurrence without `c` in `a ++ c :: b` lies in `a` or in `b`. -/
theorem occ_split (c : Char) (pat a b : Str) (hc : c ∉ pat) (h : pat <:+: a ++ c :: b) :
    pat <:+: a ∨ pat <:+: b := by
  induction a with
  | nil =>
    rcases List.infix_cons_iff.1 h with h1 | h1
    · exact Or.inl (prefix_before_sep c pat [] b hc h1).isInfix
    · exact Or.inr h1
  | cons x a ih =>
    rcases List.infix_cons_iff.1 h with h1 | h1
    · exact Or.inl (prefix_before_sep c pat (x :: a) b hc h1).isInfix
    · rcases ih h1 with h2 | h2
      · exact Or.inl (List.infix_cons h2)
      · exact Or.inr h2

/-- An occurrence that starts with `c` does not start inside a stretch without `c`. -/
theorem occ_drop_left (c : Char) (q u X : Str) (hc : c ∉ u) (h : (c :: q) <:+: u ++ X) :
    (c :: q) <:+: X := by
  induction u with
  | nil => simpa using h
  | cons a u ih =>
    simp only [List.mem_cons, not_or] at hc
    rcases List.infix_cons_iff.1 h with h1 | h1
    · exact absurd (List.cons_prefix_cons.1 h1).1 hc.1
    · exact ih hc.2 h1

/-- An occurrence that ends with `c` does not end inside a stretch without `c`. -/
theorem occ_drop_right (c : Char) (q X v : Str) (hc : c ∉ v) (h : (q ++ [c]) <:+: X ++ v) :
    (q ++ [c]) <:+: X := by
  have h1 : (c :: q.reverse) <:+: v.reverse ++ X.reverse := by
    have := List.reverse_infix.2 h
    simpa using this
  have h2 := occ_drop_left c _ _ _ (by simpa using hc) h1
  have h3 := List.reverse_infix.2 h2
  simpa using h3

/-- An occurrence of `q ++ [c]` in `a ++ c :: b`, with `a` and `q` free of `c`,
ends at the `c` after `a` or lies in `b`. -/
theorem occ_sep_split (c : Char) (q a b : Str) (hq : c ∉ q) (ha : c ∉ a)
    (h : (q ++ [c]) <:+: a ++ c :: b) : q <:+ a ∨ (q ++ [c]) <:+: b := by
  obtain ⟨x, y, hxy⟩ := h
  by_cases hx : c ∈ x
  · obtain ⟨x1, x2, hx1, rfl⟩ := exists_split c x hx
    have e : x1 ++ c :: x2 ++ (q ++ [c]) ++ y = x1 ++ c :: (x2 ++ (q ++ [c]) ++ y) := by simp
    have h2 := congrArg (afterChar c) hxy
    rw [e, afterChar_append_cons c x1 _ hx1, afterChar_append_cons c a b ha] at h2
    exact Or.inr ⟨x2, y, h2⟩
  · have e : x ++ (q ++ [c]) ++ y = (x ++ q) ++ c :: y := by simp
    have hxq : c ∉ x ++ q := by simp [hx, hq]
    have h2 := congrArg (untilChar c) hxy
    rw [e, untilChar_append_cons c _ y hxq, untilChar_append_cons c a b ha] at h2
    exact Or.inl ⟨x, h2⟩

/-! ## Lines as joined segments -/

theorem intercalate_two (sep a b : Str) (l : List Str) :
    sep.intercalate (a :: b :: l) = a ++ (sep ++ sep.intercalate (b :: l)) := by
  simp [List.intercalate, List.intersperse]

theorem intercalate_one (sep a : Str) : sep.intercalate [a] = a := by
  simp [List.intercalate, List.intersperse]

theorem intercalate_append (sep : Str) (A R : List Str) (hA : A ≠ []) (hR : R ≠ []) :
    sep.intercalate (A ++ R) = sep.intercalate A ++ (sep ++ sep.intercalate R) := by
  induction A with
  | nil => exact absurd rfl hA
  | cons a A ih =>
    cases A with
    | nil =>
      obtain ⟨r, R, rfl⟩ := List.exists_cons_of_ne_nil hR
      simp [intercalate_two, intercalate_one]
    | cons b A =>
      have := ih (by simp)
      simp only [List.cons_append] at this ⊢
      rw [intercalate_two, intercalate_two, this]
      simp

/-- An occurrence without the separator lies in one segment. -/
theorem occ_in_segment (c : Char) (pat : Str) (S : List Str) (hp : pat ≠ []) (hc : c ∉ pat)
    (h : pat <:+: [c].intercalate S) : ∃ seg ∈ S, pat <:+: seg := by
  induction S with
  | nil => exact absurd (List.infix_nil.1 (by simpa [List.intercalate] using h)) hp
  | cons a S ih =>
    cases S with
    | nil => exact ⟨a, by simp, by simpa [intercalate_one] using h⟩
    | cons b S =>
      rw [intercalate_two, List.singleton_append] at h
      rcases occ_split c pat a _ hc h with h1 | h1
      · exact ⟨a, by simp, h1⟩
      · obtain ⟨seg, hs, hseg⟩ := ih h1
        exact ⟨seg, List.mem_cons_of_mem _ hs, hseg⟩

/-- An occurrence of `q ++ [c]` in segments joined by `c` ends a segment. -/
theorem occ_ends_segment (c : Char) (q : Str) (S : List Str) (hq : c ∉ q)
    (hS : ∀ seg ∈ S, c ∉ seg) (h : (q ++ [c]) <:+: [c].intercalate S) :
    ∃ seg ∈ S, q <:+ seg := by
  induction S with
  | nil =>
    simp [List.intercalate] at h
  | cons a S ih =>
    cases S with
    | nil =>
      rw [intercalate_one] at h
      exact absurd (h.subset (by simp)) (hS a (by simp))
    | cons b S =>
      rw [intercalate_two, List.singleton_append] at h
      rcases occ_sep_split c q a _ hq (hS a (by simp)) h with h1 | h1
      · exact ⟨a, by simp, h1⟩
      · obtain ⟨seg, hs, hseg⟩ := ih (fun s hs => hS s (List.mem_cons_of_mem _ hs)) h1
        exact ⟨seg, List.mem_cons_of_mem _ hs, hseg⟩

/-! ## Keyed extraction at a known position -/

theorem untilChar_segment (c : Char) (w rest : Str) (hw : c ∉ w)
    (hrest : rest = [] ∨ ∃ r, rest = c :: r) : untilChar c (w ++ rest) = w := by
  rcases hrest with rfl | ⟨r, rfl⟩
  · simpa using untilChar_of_not_mem c w hw
  · exact untilChar_append_cons c w r hw

/-- The key is found where it first occurs. -/
theorem find_first (pre k rest : Str)
    (h : ∀ j, j < pre.length → ¬ k <+: (pre ++ (k ++ rest)).drop j) :
    find (pre ++ (k ++ rest)) k 0 = some pre.length := by
  rw [find_zero, findFrom_first k pre rest 0 h]
  simp

/-- For a line `pre ++ K ++ tail ++ rest` in which `K ++ tail` has no comma,
`rest` is empty or starts with a comma, and `K` does not occur before `pre` ends,
the key `K` gives what follows the first `=` of `K ++ tail`. -/
theorem getFieldStr_at_seg (pre K tail rest : Str) (hc : ',' ∉ K ++ tail)
    (hrest : rest = [] ∨ ∃ r, rest = ',' :: r)
    (hfirst : ∀ j, j < pre.length → ¬ K <+: (pre ++ (K ++ (tail ++ rest))).drop j) :
    getFieldStr (pre ++ (K ++ (tail ++ rest))) K = some (afterChar '=' (K ++ tail)) := by
  have hseg : untilChar ',' (K ++ (tail ++ rest)) = K ++ tail := by
    rw [← List.append_assoc]
    exact untilChar_segment ',' _ rest hc hrest
  rw [getFieldStr_eq, find_first pre K _ hfirst]
  simp only [List.drop_left, hseg]

/-- For a line `pre ++ k ++ "=" ++ v ++ rest` in which `k` has no `=` and no
comma, `v` has no comma, `rest` is empty or starts with a comma, and `k` does not
occur before `pre` ends, the keys `k` and `k ++ "="` both give `v`. -/
theorem getFieldStr_at (pre k v rest : Str) (hke : '=' ∉ k) (hkc : ',' ∉ k) (hv : ',' ∉ v)
    (hrest : rest = [] ∨ ∃ r, rest = ',' :: r)
    (hfirst : ∀ j, j < pre.length → ¬ k <+: (pre ++ (k ++ '=' :: (v ++ rest))).drop j) :
    getFieldStr (pre ++ (k ++ '=' :: (v ++ rest))) k = some v ∧
    getFieldStr (pre ++ (k ++ '=' :: (v ++ rest))) (k ++ ['=']) = some v := by
  have hval : afterChar '=' (k ++ '=' :: v) = v := afterChar_append_cons '=' k v hke
  constructor
  · have h := getFieldStr_at_seg pre k ('=' :: v) rest (by simp [hkc, hv]) hrest
      (by simpa using hfirst)
    rw [hval] at h
    simpa using h
  · have e : pre ++ (k ++ '=' :: (v ++ rest)) = pre ++ ((k ++ ['=']) ++ (v ++ rest)) := by simp
    have h := getFieldStr_at_seg pre (k ++ ['=']) v rest (by simp [hkc, hv]) hrest (by
      intro j hj hp
      rw [← e] at hp
      exact hfirst j hj ((List.prefix_append k ['=']).trans hp))
    have e2 : k ++ ['='] ++ v = k ++ '=' :: v := by simp
    rw [← e, e2, hval] at h
    exact h

/-- A key without comma that does not occur in `P` does not start in `P ++ ","`. -/
theorem first_after_comma (P k rest : Str) (hkc : ',' ∉ k) (hP : ¬ k <:+: P) :
    ∀ j, j < (P ++ [',']).length → ¬ k <+: ((P ++ [',']) ++ (k ++ rest)).drop j := by
  intro j hj hp
  have hj2 : j ≤ P.length := by simp at hj; omega
  have e : ((P ++ [',']) ++ (k ++ rest)).drop j = P.drop j ++ ',' :: (k ++ rest) := by
    rw [List.append_assoc, List.drop_append_of_le_length hj2]
    simp
  rw [e] at hp
  have h1 := prefix_before_sep ',' k _ _ hkc hp
  exact hP (h1.isInfix.trans (List.drop_suffix j P).isInfix)

/-- In a line of segments joined by commas, the first segment that holds the key
`K`, if it is `K ++ tail`, gives what follows the first `=` of `K ++ tail`. -/
theorem getFieldStr_segment (A B : List Str) (K tail : Str) (hK : K ≠ [])
    (hc : ',' ∉ K ++ tail) (hA : ∀ a ∈ A, ¬ K <:+: a) :
    getFieldStr ([','].intercalate (A ++ (K ++ tail) :: B)) K =
      some (afterChar '=' (K ++ tail)) := by
  have hkc : ',' ∉ K := fun h => hc (List.mem_append_left _ h)
  have hB : ∃ rest, [','].intercalate ((K ++ tail) :: B) = K ++ (tail ++ rest) ∧
      (rest = [] ∨ ∃ r, rest = ',' :: r) := by
    cases B with
    | nil => exact ⟨[], by simp [intercalate_one], Or.inl rfl⟩
    | cons b B =>
      exact ⟨',' :: [','].intercalate (b :: B), by simp [intercalate_two], Or.inr ⟨_, rfl⟩⟩
  obtain ⟨rest, hrest, hr⟩ := hB
  by_cases hA0 : A = []
  · subst hA0
    rw [List.nil_append, hrest]
    exact getFieldStr_at_seg [] K tail rest hc hr (by simp)
  · have hP : ¬ K <:+: [','].intercalate A := fun h => by
      obtain ⟨a, ha, hka⟩ := occ_in_segment ',' K A hK hkc h
      exact hA a ha hka
    have e : [','].intercalate (A ++ (K ++ tail) :: B) =
        ([','].intercalate A ++ [',']) ++ (K ++ (tail ++ rest)) := by
      rw [intercalate_append _ A _ hA0 (by simp), hrest]
      simp
    rw [e]
    exact getFieldStr_at_seg _ K tail rest hc hr
      (first_after_comma ([','].intercalate A) K _ hkc hP)

/-- In a line of comma-free segments joined by commas, `getField(line, i)` is
the `i`-th segment. -/
theorem getFieldInt_segment (S : List Str) (hS : ∀ s ∈ S, ',' ∉ s) (i : Nat) (seg : Str)
    (hi : S[i]? = some seg) : getFieldInt ([','].intercalate S) i = some seg := by
  rw [getFieldInt_eq]
  simp only [Int.toNat_ofNat]
  induction S generalizing i with
  | nil => simp at hi
  | cons a S ih =>
    have ha : ',' ∉ a := hS a (by simp)
    cases S with
    | nil =>
      cases i with
      | zero =>
        simp only [List.getElem?_cons_zero, Option.some.injEq] at hi
        subst hi
        simp [intercalate_one, untilChar_of_not_mem ',' a ha]
      | succ i => simp at hi
    | cons b S =>
      rw [intercalate_two, List.singleton_append]
      cases i with
      | zero =>
        simp only [List.getElem?_cons_zero, Option.some.injEq] at hi
        subst hi
        simp [untilChar_append_cons ',' a _ ha]
      | succ i =>
        rw [Function.iterate_succ_apply, afterChar_append_cons ',' a _ ha]
        exact ih (fun s hs => hS s (List.mem_cons_of_mem _ hs)) i (by simpa using hi)

/-! ## Runs of spaces -/

theorem loop_at_end (fuel : Nat) (x r ps : Str) (p0 : Char) :
    stringReplaceLoop (fuel + 1) x (p0 :: ps) r x.length = some x := by
  apply loop_done
  have := find_at x [] (p0 :: ps)
  simp only [List.append_nil] at this
  rw [this]
  rfl

/-- Tokens joined by two spaces: the pass over the line leaves one space at each
joint. -/
theorem loop_join2 (toks : List Str) (h : ∀ t ∈ toks, ' ' ∉ t) :
    ∀ (fuel : Nat) (x : Str), ([' ', ' '].intercalate toks).length < fuel →
      stringReplaceLoop fuel (x ++ [' ', ' '].intercalate toks) [' ', ' '] [' '] x.length =
        some (x ++ [' '].intercalate toks) := by
  induction toks with
  | nil =>
    intro fuel x hf
    obtain ⟨n, rfl⟩ : ∃ n, fuel = n + 1 := ⟨fuel - 1, by omega⟩
    simpa [List.intercalate] using loop_at_end n x [' '] [' '] ' '
  | cons a toks ih =>
    intro fuel x hf
    obtain ⟨n, rfl⟩ : ∃ n, fuel = n + 1 := ⟨fuel - 1, by omega⟩
    have ha : ' ' ∉ a := h a (by simp)
    cases toks with
    | nil =>
      rw [intercalate_one, intercalate_one]
      have := loop_skip_token (n + 1) x a [] [' '] [' '] ' ' ha
      simp only [List.append_nil] at this
      rw [this, loop_at_end]
    | cons b toks =>
      rw [intercalate_two, intercalate_two] at *
      simp only [List.length_append, List.length_cons, List.length_nil] at hf
      rw [loop_skip_token (n + 1) x a _ [' '] [' '] ' ' ha, loop_hit]
      have e : x ++ a ++ ([' '] ++ [' ', ' '].intercalate (b :: toks)) =
          (x ++ a ++ [' ']) ++ [' ', ' '].intercalate (b :: toks) := by simp
      have e2 : (x ++ a).length + 1 = (x ++ a ++ [' ']).length := by simp; omega
      rw [e, e2, ih (fun t ht => h t (List.mem_cons_of_mem _ ht)) n _ (by omega)]
      simp

/-- Non-empty tokens joined by one space: the pass over the line changes nothing. -/
theorem loop_join1 (toks : List Str) (h : ∀ t ∈ toks, t ≠ [] ∧ ' ' ∉ t) :
    ∀ (fuel : Nat) (x : Str), ([' '].intercalate toks).length < fuel →
      stringReplaceLoop fuel (x ++ [' '].intercalate toks) [' ', ' '] [' '] x.length =
        some (x ++ [' '].intercalate toks) := by
  induction toks with
  | nil =>
    intro fuel x hf
    obtain ⟨n, rfl⟩ : ∃ n, fuel = n + 1 := ⟨fuel - 1, by omega⟩
    simpa [List.intercalate] using loop_at_end n x [' '] [' '] ' '
  | cons a toks ih =>
    intro fuel x hf
    obtain ⟨n, rfl⟩ : ∃ n, fuel = n + 1 := ⟨fuel - 1, by omega⟩
    have ha : ' ' ∉ a := (h a (by simp)).2
    cases toks with
    | nil =>
      rw [intercalate_one]
      have := loop_skip_token (n + 1) x a [] [' '] [' '] ' ' ha
      simp only [List.append_nil] at this
      rw [this, loop_at_end]
    | cons b toks =>
      obtain ⟨hb0, hb1⟩ := h b (by simp)
      obtain ⟨b0, b1, rfl⟩ := List.exists_cons_of_ne_nil hb0
      simp only [List.mem_cons, not_or] at hb1
      have hstart : ∃ w, [' '].intercalate ((b0 :: b1) :: toks) = b0 :: w := by
        cases toks with
        | nil => exact ⟨b1, by simp [intercalate_one]⟩
        | cons t toks => exact ⟨_, by rw [intercalate_two]; rfl⟩
      obtain ⟨w, hw⟩ := hstart
      have ih2 := ih (fun t ht => h t (List.mem_cons_of_mem _ ht))
      rw [intercalate_two] at *
      simp only [List.length_append, List.length_cons, List.length_nil] at hf
      rw [loop_skip_token (n + 1) x a _ [' '] [' '] ' ' ha, List.singleton_append]
      have hp : List.isPrefixOf [' ', ' '] (' ' :: [' '].intercalate ((b0 :: b1) :: toks)) = false := by
        rw [hw]
        simp [List.isPrefixOf]
        exact fun e => hb1.1 e
      rw [loop_skip _ (x ++ a) _ _ _ ' ' hp, ih2 (n + 1) _ (by omega)]
      simp

theorem stringReplace_join2 (toks : List Str) (h : ∀ t ∈ toks, ' ' ∉ t) :
    stringReplace ("  ".toList.intercalate toks) "  ".toList " ".toList =
      some (" ".toList.intercalate toks) := by
  simpa using loop_join2 toks h _ [] (Nat.lt_succ_self _)

theorem stringReplace_join1 (toks : List Str) (h : ∀ t ∈ toks, t ≠ [] ∧ ' ' ∉ t) :
    stringReplace (" ".toList.intercalate toks) "  ".toList " ".toList =
      some (" ".toList.intercalate toks) := by
  simpa using loop_join1 toks h _ [] (Nat.lt_succ_self _)

theorem map_space_free (s : Str) (h : ' ' ∉ s) :
    s.map (fun c => if c = ' ' then ',' else c) = s := by
  induction s with
  | nil => rfl
  | cons a s ih =>
    simp only [List.mem_cons, not_or] at h
    have ha : ¬ a = ' ' := fun e => h.1 e.symm
    simp [ih h.2, ha]

/-- The second rewrite turns segments joined by spaces into segments joined by
commas. -/
theorem stringReplace_spaces (S : List Str) (h : ∀ s ∈ S, ' ' ∉ s) :
    stringReplace (" ".toList.intercalate S) " ".toList ",".toList =
      some (",".toList.intercalate S) := by
  show stringReplace ([' '].intercalate S) [' '] [','] = some ([','].intercalate S)
  rw [stringReplace_map]
  congr 1
  induction S with
  | nil => rfl
  | cons a S ih =>
    have ha := map_space_free a (h a (by simp))
    cases S with
    | nil => simpa [intercalate_one] using ha
    | cons b S =>
      have := ih (fun s hs => h s (List.mem_cons_of_mem _ hs))
      rw [intercalate_two, intercalate_two, List.map_append, List.map_append, ha, this]
      rfl

/-! ## The fields of a device line -/

theorem plain_no_occ (v K : Str) (hv : plainValue v)
    (hK : ∃ w ∈ forbiddenWords, w <:+: K) : ¬ K <:+: v := by
  obtain ⟨w, hw, hwK⟩ := hK
  exact fun h => hv.2.2.2 w hw (hwK.trans h)

theorem keyed_no_occ (k v K : Str) (hv : plainValue v)
    (hK : ∃ w ∈ forbiddenWords, w <:+: K) (hanch : '=' ∉ K ∨ K.getLast? = some '=')
    (hk : ¬ K <:+: k ++ ['=']) : ¬ K <:+: keyed k v := by
  intro h
  unfold keyed at h
  rcases hanch with h1 | h1
  · rcases occ_split '=' K k v h1 h with h2 | h2
    · exact hk (h2.trans (List.prefix_append k ['=']).isInfix)
    · exact plain_no_occ v K hv hK h2
  · have e : K.dropLast ++ ['='] = K := List.dropLast_append_getLast? '=' (by simp [h1])
    have h3 : (K.dropLast ++ ['=']) <:+: (k ++ ['=']) ++ v := by
      rw [e]
      simpa using h
    have h4 := occ_drop_right '=' _ _ v hv.2.2.1 h3
    rw [e] at h4
    exact hk h4

theorem plain_no_suffix (v w : Str) (hv : plainValue v) (hw : w ∈ forbiddenWords) :
    ¬ w <:+ v :=
  fun h => hv.2.2.2 w hw h.isInfix

theorem keyed_no_suffix (k v w : Str) (hv : plainValue v) (hw : w ∈ forbiddenWords)
    (he : '=' ∉ w) : ¬ w <:+ keyed k v :=
  fun h => plain_no_suffix v w hv hw (suffix_after_sep '=' w k v he h)

theorem keyed_free (c : Char) (k v : Str) (hk : c ∉ k) (hc : c ≠ '=') (hv : c ∉ v) :
    c ∉ keyed k v := by
  simp [keyed, hk, hc, hv]

theorem afterChar_keyed (k v : Str) (hk : '=' ∉ k) : afterChar '=' (keyed k v) = v :=
  afterChar_append_cons '=' k v hk

/-! ## The cache -/

/-- The eviction loop, entered with `x = 0`, removes nothing when `list_size` is
not negative: its guard `x > list_size` is false and `x` stays `0`. -/
theorem evictLoop_zero (list_size : Int) (h : 0 ≤ list_size) (l : List ip_table) :
    evictLoop list_size 0 l = l := by
  induction l with
  | nil => rfl
  | cons node next ih =>
    have hx : ¬ (0 : Int) > list_size := by omega
    simp [evictLoop, hx, ih]

theorem nslookup_hit (dns : Dns) (st : Resolver) (a h : Str)
    (hs : scanCache st.ipt_top a = some h) : nslookup dns st (some a) = (some h, st) := by
  simp [nslookup, hs]

theorem nslookup_miss (dns : Dns) (st : Resolver) (a : Str)
    (hs : scanCache st.ipt_top a = none) :
    nslookup dns st (some a) =
      (some ((dns st.lookups a).getD a),
        { ipt_top := { ip_address := a, hostname := (dns st.lookups a).getD a } :: st.ipt_top,
          list_size := st.list_size + 1, lookups := st.lookups + 1 }) := by
  have hh : (match dns st.lookups a with
      | some h_name => h_name
      | none => a) = (dns st.lookups a).getD a := by
    cases dns st.lookups a <;> rfl
  by_cases hsz : st.list_size > MAXIMUM_CACHED_HOSTNAMES
  · have h0 : (0 : Int) ≤ st.list_size + 1 := by
      unfold MAXIMUM_CACHED_HOSTNAMES at hsz
      omega
    simp only [nslookup, hs, hsz, if_true, evictLoop_zero _ h0, hh]
  · simp only [nslookup, hs, hsz, if_false, hh]

/-- An entry of the cache answers the scan for its address after any further call. -/
theorem scanCache_nslookup (dns : Dns) (st : Resolver) (a h : Str) (b : Option Str)
    (hs : scanCache st.ipt_top a = some h) :
    scanCache (nslookup dns st b).2.ipt_top a = some h := by
  cases b with
  | none => simpa [nslookup] using hs
  | some b =>
    cases hb : scanCache st.ipt_top b with
    | some hb2 => rw [nslookup_hit dns st b hb2 hb]; exact hs
    | none =>
      rw [nslookup_miss dns st b hb]
      have hne : ¬ b = a := by
        intro e
        rw [e, hs] at hb
        cases hb
      simp [scanCache, hne, hs]

theorem scanCache_nslookups (dns : Dns) (bs : List (Option Str)) :
    ∀ (st : Resolver) (a h : Str), scanCache st.ipt_top a = some h →
      scanCache (nslookups dns st bs).ipt_top a = some h := by
  induction bs with
  | nil => intro st a h hs; exact hs
  | cons b bs ih =>
    intro st a h hs
    exact ih _ a h (scanCache_nslookup dns st a h b hs)

/-- From the empty cache on, the list, `list_size` and the number of lookups made
all count the misses. -/
theorem nslookups_count (dns : Dns) (as : List (Option Str)) :
    ∀ st : Resolver,
      (nslookups dns st as).ipt_top.length = st.ipt_top.length + missCount dns st as ∧
      (nslookups dns st as).list_size = st.list_size + missCount dns st as ∧
      (nslookups dns st as).lookups = st.lookups + missCount dns st as := by
  induction as with
  | nil => intro st; simp [nslookups, missCount]
  | cons a as ih =>
    intro st
    cases a with
    | none =>
      have := ih st
      simpa [nslookups, missCount, nslookup] using this
    | some a =>
      cases hs : scanCache st.ipt_top a with
      | some h =>
        have := ih st
        simpa [nslookups, missCount, nslookup_hit dns st a h hs, hs] using this
      | none =>
        obtain ⟨h1, h2, h3⟩ := ih (nslookup dns st (some a)).2
        simp only [nslookups, missCount, hs, if_true]
        rw [h1, h2, h3, nslookup_miss dns st a hs]
        simp only [List.length_cons]
        refine ⟨by omega, ?_, by omega⟩
        push_cast
        omega

/-! ## Beyond the last field, and segments without `=` -/

theorem iterate_afterChar_of_not_mem (c : Char) (n : Nat) (s : Str) (h : c ∉ s) :
    (afterChar c)^[n] s = s := by
  induction n with
  | zero => rfl
  | succ n ih => rw [Function.iterate_succ_apply, afterChar_of_not_mem c s h, ih]

/-- After as many rounds as the line has commas, or more, what is left is the text
after the last comma. -/
theorem iterate_afterChar_last (c : Char) (n : Nat) :
    ∀ (x y : Str), c ∉ y → (x ++ c :: y).count c ≤ n → (afterChar c)^[n] (x ++ c :: y) = y := by
  induction n with
  | zero =>
    intro x y _ hn
    simp [List.count_append] at hn
  | succ n ih =>
    intro x y hy hn
    rw [Function.iterate_succ_apply]
    by_cases hx : c ∈ x
    · obtain ⟨u, v, hu, rfl⟩ := exists_split c x hx
      have e : u ++ c :: v ++ c :: y = u ++ c :: (v ++ c :: y) := by simp
      rw [e, afterChar_append_cons c u _ hu]
      apply ih v y hy
      rw [e] at hn
      simp only [List.count_append, List.count_cons_self, List.count_eq_zero.2 hu] at hn ⊢
      omega
    · rw [afterChar_append_cons c x y hx]
      exact iterate_afterChar_of_not_mem c n y hy

theorem untilChar_append_of_not_mem (c : Char) (k rest : Str) (h : c ∉ k) :
    untilChar c (k ++ rest) = k ++ untilChar c rest := by
  induction k with
  | nil => rfl
  | cons a k ih =>
    simp only [List.mem_cons, not_or] at h
    rw [List.cons_append, untilChar_cons, if_neg (fun e => h.1 e.symm), ih h.2]
    rfl

/-! ## The read loop -/

theorem processLine_off (dns : Dns) (st : Resolver) (line : Str) :
    ∃ row, processLine false false dns st line = some (row, st) := by
  obtain ⟨ins, hins⟩ := normalize_total line
  obtain ⟨cols, -, -, -, hrec⟩ := assemble_off dns st ins
  exact ⟨outputRow ins ([','].intercalate cols),
    by simp only [processLine, hins, hrec, Option.some_bind]⟩

/-- With both flags off and no empty line, the run writes the rows of its lines in
the order of the lines. -/
theorem run_off (dns : Dns) (st : Resolver) (lines : List Str) (h : ∀ l ∈ lines, l ≠ []) :
    run false false dns st lines =
      some (lines.filterMap fun l =>
        ((processLine false false dns st l).map Prod.fst).join) := by
  induction lines with
  | nil => rfl
  | cons l lines ih =>
    have hl : l ≠ [] := h l (by simp)
    obtain ⟨row, hrow⟩ := processLine_off dns st l
    have ih2 := ih (fun x hx => h x (List.mem_cons_of_mem _ hx))
    cases row with
    | none => simp [run, hl, hrow, ih2, List.filterMap_cons]
    | some r => simp [run, hl, hrow, ih2, List.filterMap_cons]

/-! ## A run of spaces between two tokens -/

/-- The pass for two spaces over a run of `n` spaces before a token that starts
with another character: each round takes two spaces and leaves one, and a last
single space stays. -/
theorem loop_space_run (b0 : Char) (b1 : Str) (hb0 : b0 ≠ ' ') (hb1 : ' ' ∉ b1) (n : Nat) :
    ∀ (fuel : Nat) (x : Str), n + b1.length + 1 < fuel →
      stringReplaceLoop fuel (x ++ (List.replicate n ' ' ++ b0 :: b1)) [' ', ' '] [' ']
          x.length =
        some (x ++ (List.replicate ((n + 1) / 2) ' ' ++ b0 :: b1)) := by
  have hb : ' ' ∉ b0 :: b1 := by
    simp only [List.mem_cons, not_or]
    exact ⟨fun e => hb0 e.symm, hb1⟩
  have base : ∀ (fuel : Nat) (x : Str), 0 < fuel →
      stringReplaceLoop fuel (x ++ b0 :: b1) [' ', ' '] [' '] x.length =
        some (x ++ b0 :: b1) := by
    intro fuel x hf
    obtain ⟨m, rfl⟩ : ∃ m, fuel = m + 1 := ⟨fuel - 1, by omega⟩
    have h := loop_skip_token (m + 1) x (b0 :: b1) [] [' '] [' '] ' ' hb
    simp only [List.append_nil] at h
    rw [h, loop_at_end]
  induction n using Nat.strong_induction_on with
  | _ n ih =>
    intro fuel x hf
    match n, ih, hf with
    | 0, _, hf => simpa using base fuel x (by omega)
    | 1, _, hf =>
      have hp : List.isPrefixOf [' ', ' '] (' ' :: b0 :: b1) = false := by
        simp [List.isPrefixOf]
        exact fun e => hb0 e.symm
      have h := loop_skip fuel x (b0 :: b1) [' ', ' '] [' '] ' ' hp
      simp only [List.replicate, List.nil_append, List.cons_append] at h ⊢
      rw [h, base fuel (x ++ [' ']) (by omega)]
      simp
    | k + 2, ih, hf =>
      obtain ⟨m, rfl⟩ : ∃ m, fuel = m + 1 := ⟨fuel - 1, by omega⟩
      have e1 : x ++ (List.replicate (k + 2) ' ' ++ b0 :: b1) =
          x ++ ([' ', ' '] ++ (List.replicate k ' ' ++ b0 :: b1)) := by
        simp [List.replicate]
      have e2 : x ++ ([' '] ++ (List.replicate k ' ' ++ b0 :: b1)) =
          (x ++ [' ']) ++ (List.replicate k ' ' ++ b0 :: b1) := by simp
      have e3 : x.length + 1 = (x ++ [' ']).length := by simp
      rw [e1, loop_hit, e2, e3, ih k (by omega) m (x ++ [' ']) (by omega)]
      have e4 : (k + 2 + 1) / 2 = (k + 1) / 2 + 1 := by omega
      rw [e4]
      simp [List.replicate]

/-- The first rewrite on two tokens with `n` spaces between them. -/
theorem stringReplace_space_run (a b : Str) (n : Nat) (ha : ' ' ∉ a)
    (hb : b ≠ [] ∧ ' ' ∉ b) :
    stringReplace (a ++ List.replicate n ' ' ++ b) "  ".toList " ".toList =
      some (a ++ List.replicate ((n + 1) / 2) ' ' ++ b) := by
  obtain ⟨b0, b1, rfl⟩ := List.exists_cons_of_ne_nil hb.1
  have hb2 := hb.2
  simp only [List.mem_cons, not_or] at hb2
  show stringReplaceLoop _ _ [' ', ' '] [' '] 0 = _
  rw [List.append_assoc]
  have h := loop_skip_token ((a ++ (List.replicate n ' ' ++ b0 :: b1)).length + 1) [] a
    (List.replicate n ' ' ++ b0 :: b1) [' '] [' '] ' ' ha
  simp only [List.nil_append, List.length_nil] at h
  rw [h]
  have h2 := loop_space_run b0 b1 (fun e => hb2.1 e.symm) hb2.2 n
    ((a ++ (List.replicate n ' ' ++ b0 :: b1)).length + 1) a (by simp; omega)
  rw [h2]
  simp

/-- The second rewrite on two tokens with `k` spaces between them. -/
theorem stringReplace_spaces_run (a b : Str) (k : Nat) (ha : ' ' ∉ a) (hb : ' ' ∉ b) :
    stringReplace (a ++ List.replicate k ' ' ++ b) " ".toList ",".toList =
      some (a ++ List.replicate k ',' ++ b) := by
  show stringReplace _ [' '] [','] = _
  rw [stringReplace_map]
  simp [map_space_free a ha, map_space_free b hb]

/-! ## Replace-all and the loop of `stringReplace` -/

theorem replaceAllFuel_nil (pat r : Str) (n : Nat) : replaceAllFuel pat r n [] = [] := by
  cases n <;> rfl

theorem length_drop_lt (pat : Str) (hp : pat ≠ []) (c : Char) (s : Str) :
    ((c :: s).drop pat.length).length ≤ s.length := by
  have := List.length_pos.2 hp
  simp only [List.length_drop, List.length_cons]
  omega

theorem replaceAllFuel_enough (pat r : Str) (hp : pat ≠ []) :
    ∀ (n m : Nat) (s : Str), s.length ≤ n → s.length ≤ m →
      replaceAllFuel pat r n s = replaceAllFuel pat r m s := by
  intro n
  induction n with
  | zero =>
    intro m s hn _
    have : s = [] := List.length_eq_zero.1 (by omega)
    subst this
    rw [replaceAllFuel_nil, replaceAllFuel_nil]
  | succ n ih =>
    intro m s hn hm
    cases s with
    | nil => rw [replaceAllFuel_nil, replaceAllFuel_nil]
    | cons c s =>
      obtain ⟨k, rfl⟩ : ∃ k, m = k + 1 := ⟨m - 1, by simp at hm; omega⟩
      simp only [List.length_cons] at hn hm
      have hd := length_drop_lt pat hp c s
      simp only [replaceAllFuel]
      rw [ih k _ (by omega) (by omega), ih k s (by omega) (by omega)]

theorem replaceAll_nil (pat r : Str) : replaceAll pat r [] = [] := rfl

/-- At an occurrence of the pattern: the replacement, then the rest. -/
theorem replaceAll_hit (pat r z : Str) (hp : pat ≠ []) :
    replaceAll pat r (pat ++ z) = r ++ replaceAll pat r z := by
  obtain ⟨p0, ps, rfl⟩ := List.exists_cons_of_ne_nil hp
  have hpre : List.isPrefixOf (p0 :: ps) (p0 :: (ps ++ z)) = true :=
    List.isPrefixOf_iff_prefix.2 ⟨z, rfl⟩
  have hd : List.drop (p0 :: ps).length (p0 :: (ps ++ z)) = z := by
    simp
  unfold replaceAll
  rw [List.cons_append, List.length_cons, replaceAllFuel, if_pos hpre, hd,
    replaceAllFuel_enough (p0 :: ps) r hp _ z.length z (by simp) (Nat.le_refl _)]

/-- Where the pattern does not start: the character, then the rest. -/
theorem replaceAll_skip (pat r s : Str) (c : Char) (h : ¬ pat <+: c :: s) :
    replaceAll pat r (c :: s) = c :: replaceAll pat r s := by
  have hpre : ¬ List.isPrefixOf pat (c :: s) = true := fun e =>
    h (List.isPrefixOf_iff_prefix.1 e)
  unfold replaceAll
  rw [List.length_cons, replaceAllFuel, if_neg hpre]

/-- The loop of `stringReplace` computes `replaceAll` when the first character of
the pattern is not among the characters of the replacement after its first. -/
theorem loop_replaceAll (p0 r0 : Char) (ps rs : Str) (h : p0 ∉ rs) :
    ∀ (n : Nat) (y : Str) (fuel : Nat) (x : Str), y.length ≤ n → y.length < fuel →
      stringReplaceLoop fuel (x ++ y) (p0 :: ps) (r0 :: rs) x.length =
        some (x ++ replaceAll (p0 :: ps) (r0 :: rs) y) := by
  intro n
  induction n with
  | zero =>
    intro y fuel x hn hf
    have : y = [] := List.length_eq_zero.1 (by omega)
    subst this
    obtain ⟨m, rfl⟩ : ∃ m, fuel = m + 1 := ⟨fuel - 1, by omega⟩
    simp [replaceAll_nil, loop_at_end m x (r0 :: rs) ps p0]
  | succ n ih =>
    intro y fuel x hn hf
    cases y with
    | nil =>
      obtain ⟨m, rfl⟩ : ∃ m, fuel = m + 1 := ⟨fuel - 1, by omega⟩
      simpa [replaceAll_nil] using loop_at_end m x (r0 :: rs) ps p0
    | cons c s =>
      simp only [List.length_cons] at hn hf
      by_cases hpre : (p0 :: ps) <+: c :: s
      · obtain ⟨z, hz⟩ := hpre
        obtain ⟨m, rfl⟩ : ∃ m, fuel = m + 1 := ⟨fuel - 1, by omega⟩
        have hlen : (c :: s).length = (p0 :: ps).length + z.length := by
          rw [← hz]; simp; omega
        simp only [List.length_cons] at hlen
        rw [← hz, loop_hit, replaceAll_hit _ _ _ (by simp)]
        have e1 : x ++ (r0 :: rs ++ z) = (x ++ [r0]) ++ (rs ++ z) := by simp
        have e2 : x.length + 1 = (x ++ [r0]).length := by simp
        rw [e1, e2, loop_skip_token m (x ++ [r0]) rs z (r0 :: rs) ps p0 h,
          ih z m _ (by omega) (by omega)]
        simp
      · have hp2 : List.isPrefixOf (p0 :: ps) (c :: s) = false := by
          cases hb : List.isPrefixOf (p0 :: ps) (c :: s) with
          | false => rfl
          | true => exact absurd (List.isPrefixOf_iff_prefix.1 hb) hpre
        rw [loop_skip fuel x s _ _ c hp2, ih s fuel _ (by omega) (by omega),
          replaceAll_skip _ _ _ _ hpre]
        simp

theorem stringReplace_replaceAll (p0 r0 : Char) (ps rs s : Str) (h : p0 ∉ rs) :
    stringReplace s (p0 :: ps) (r0 :: rs) = some (replaceAll (p0 :: ps) (r0 :: rs) s) := by
  simpa using loop_replaceAll p0 r0 ps rs h s.length s (s.length + 1) [] (Nat.le_refl _)
    (Nat.lt_succ_self _)

/-! ## Replace-all on a line in parts -/

/-- A stretch in which no occurrence starts is passed unchanged. -/
theorem replaceAll_pass (pat r A B : Str)
    (h : ∀ j, j < A.length → ¬ pat <+: (A ++ B).drop j) :
    replaceAll pat r (A ++ B) = A ++ replaceAll pat r B := by
  induction A with
  | nil => rfl
  | cons c A ih =>
    have h0 : ¬ pat <+: c :: (A ++ B) := by simpa using h 0 (by simp)
    have hk : ∀ j, j < A.length → ¬ pat <+: (A ++ B).drop j := fun j hj => by
      simpa using h (j + 1) (by simpa using hj)
    rw [List.cons_append, replaceAll_skip pat r _ c h0, ih hk, List.cons_append]

theorem noCross_tail (pat X A B : Str) (h : noCross pat (X ++ A) B) : noCross pat A B := by
  intro j hj hp
  have e : ((X ++ A) ++ B).drop (X.length + j) = (A ++ B).drop j := by
    rw [List.append_assoc, ← List.drop_drop, List.drop_left]
  have := h (X.length + j) (by simp; omega) (by rw [e]; exact hp)
  simp only [List.length_append] at this
  omega

/-- Replace-all works on `A` and on `B` apart when no occurrence crosses from `A`
into `B`. -/
theorem replaceAll_append (pat r : Str) (hp : pat ≠ []) (B : Str) :
    ∀ (n : Nat) (A : Str), A.length ≤ n → noCross pat A B →
      replaceAll pat r (A ++ B) = replaceAll pat r A ++ replaceAll pat r B := by
  intro n
  induction n with
  | zero =>
    intro A hn _
    have : A = [] := List.length_eq_zero.1 (by omega)
    subst this
    rfl
  | succ n ih =>
    intro A hn hc
    cases A with
    | nil => rfl
    | cons c A =>
      simp only [List.length_cons] at hn
      by_cases hit : pat <+: c :: (A ++ B)
      · have hlen := hc 0 (by simp) (by simpa using hit)
        have hpA : pat <+: c :: A :=
          List.prefix_of_prefix_length_le hit (List.prefix_append (c :: A) B) (by omega)
        obtain ⟨A2, hA2⟩ := hpA
        have hl : (c :: A).length = pat.length + A2.length := by rw [← hA2]; simp
        have hpos := List.length_pos.2 hp
        simp only [List.length_cons] at hl
        have hc2 : noCross pat A2 B := noCross_tail pat pat A2 B (by rw [hA2]; exact hc)
        rw [← hA2, List.append_assoc, replaceAll_hit pat r _ hp,
          replaceAll_hit pat r _ hp, ih A2 (by omega) hc2, List.append_assoc]
      · have hitA : ¬ pat <+: c :: A := fun h =>
          hit (h.trans (List.prefix_append (c :: A) B))
        have hc2 : noCross pat A B := noCross_tail pat [c] A B hc
        rw [List.cons_append, replaceAll_skip pat r _ c hit, replaceAll_skip pat r _ c hitA,
          ih A (by omega) hc2, List.cons_append]

/-- What a prefix leaves of `u ++ w` after `u`. -/
theorem prefix_drop_of_append (p u w : Str) (h : p <+: u ++ w) : p.drop u.length <+: w := by
  obtain ⟨t, ht⟩ := h
  by_cases hl : u.length ≤ p.length
  · have h2 := congrArg (List.drop u.length) ht
    rw [List.drop_append_of_le_length hl, List.drop_left] at h2
    exact ⟨t, h2⟩
  · rw [List.drop_of_length_le (by omega)]
    exact List.nil_prefix

/-- No occurrence crosses into a part that starts with `z0` when no proper end of
the pattern agrees with `z0`. -/
theorem noCross_of_head (pat A z0 B : Str)
    (h : ∀ k, k < pat.length → 1 ≤ k → ¬ (pat.drop k <+: z0 ∨ z0 <+: pat.drop k)) :
    noCross pat A (z0 ++ B) := by
  intro j hj hp
  by_contra hcon
  have hk1 : 1 ≤ A.length - j := by omega
  have hk2 : A.length - j < pat.length := by omega
  have e : (A ++ (z0 ++ B)).drop j = A.drop j ++ (z0 ++ B) :=
    List.drop_append_of_le_length (by omega)
  rw [e] at hp
  have h2 := prefix_drop_of_append pat (A.drop j) (z0 ++ B) hp
  rw [List.length_drop] at h2
  exact h _ hk2 hk1 (List.prefix_or_prefix_of_prefix h2 (List.prefix_append z0 B))

/-- No occurrence starts in a stretch without the first character of the pattern. -/
theorem no_start_of_first (p0 : Char) (ps A B : Str) (h : p0 ∉ A) :
    ∀ j, j < A.length → ¬ (p0 :: ps) <+: (A ++ B).drop j := by
  intro j hj hp
  have e : (A ++ B).drop j = A[j] :: (A.drop (j + 1) ++ B) := by
    rw [List.drop_append_of_le_length (by omega), List.drop_eq_getElem_cons hj]
    rfl
  rw [e] at hp
  have := (List.cons_prefix_cons.1 hp).1
  exact h (this ▸ List.getElem_mem hj)

/-- No occurrence starts in a stretch whose ends all disagree with the pattern. -/
theorem no_start_of_clash (pat A B : Str)
    (h : ∀ j, j < A.length → ¬ (pat <+: A.drop j ∨ A.drop j <+: pat)) :
    ∀ j, j < A.length → ¬ pat <+: (A ++ B).drop j := by
  intro j hj hp
  rw [List.drop_append_of_le_length (by omega)] at hp
  exact h j hj (List.prefix_or_prefix_of_prefix hp (List.prefix_append _ B))

/-- An occurrence of `q ++ c :: t` that starts in a stretch `A` without `c`,
before a `c`, takes the end of `A` for `q` and what follows the `c` for `t`. -/
theorem no_start_of_sep (c : Char) (q t A B : Str) (hq : c ∉ q) (hA : c ∉ A)
    (hB : B = [] ∨ ∃ w, B = c :: w ∧ ¬ (q <:+ A ∧ t <+: w)) :
    ∀ j, j < A.length → ¬ (q ++ c :: t) <+: (A ++ B).drop j := by
  intro j hj hp
  rw [List.drop_append_of_le_length (by omega)] at hp
  have hu : c ∉ A.drop j := fun h => hA (List.mem_of_mem_drop h)
  rcases hB with rfl | ⟨w, rfl, hw⟩
  · rw [List.append_nil] at hp
    exact hu (hp.subset (by simp))
  · obtain ⟨v, hv⟩ := hp
    have e : q ++ c :: t ++ v = q ++ c :: (t ++ v) := by simp
    rw [e] at hv
    have h1 := congrArg (untilChar c) hv
    have h2 := congrArg (afterChar c) hv
    rw [untilChar_append_cons c q _ hq, untilChar_append_cons c _ w hu] at h1
    rw [afterChar_append_cons c q _ hq, afterChar_append_cons c _ w hu] at h2
    exact hw ⟨h1 ▸ List.drop_suffix j A, ⟨v, h2⟩⟩

/-- A prefix of the result without the first character of the replacement is a
prefix of the input. -/
theorem prefix_of_replaceAll (pat rs : Str) (r0 : Char) (hp : pat ≠ []) (w : Str) :
    ∀ s : Str, r0 ∉ w → w <+: replaceAll pat (r0 :: rs) s → w <+: s := by
  induction w with
  | nil => intro s _ _; exact List.nil_prefix
  | cons a w ih =>
    intro s hw h
    simp only [List.mem_cons, not_or] at hw
    cases s with
    | nil => simp [replaceAll_nil] at h
    | cons c s =>
      by_cases hit : pat <+: c :: s
      · obtain ⟨z, hz⟩ := hit
        rw [← hz, replaceAll_hit pat _ z hp, List.cons_append] at h
        exact absurd (List.cons_prefix_cons.1 h).1.symm hw.1
      · rw [replaceAll_skip pat _ s c hit] at h
        obtain ⟨h1, h2⟩ := List.cons_prefix_cons.1 h
        subst h1
        exact List.cons_prefix_cons.2 ⟨rfl, ih s hw.2 h2⟩

/-- The rewrites change characters within space, comma and `_` only. -/
theorem map_hard_replaceAll (pat r : Str) (hp : pat ≠ [])
    (h : pat.map hard = r.map hard) :
    ∀ (n : Nat) (s : Str), s.length ≤ n → (replaceAll pat r s).map hard = s.map hard := by
  intro n
  induction n with
  | zero =>
    intro s hn
    have : s = [] := List.length_eq_zero.1 (by omega)
    subst this
    rfl
  | succ n ih =>
    intro s hn
    cases s with
    | nil => rfl
    | cons c s =>
      simp only [List.length_cons] at hn
      by_cases hit : pat <+: c :: s
      · obtain ⟨z, hz⟩ := hit
        have hl : (c :: s).length = pat.length + z.length := by rw [← hz]; simp
        have hpos := List.length_pos.2 hp
        simp only [List.length_cons] at hl
        rw [← hz, replaceAll_hit pat r z hp, List.map_append, List.map_append, h,
          ih z (by omega)]
      · rw [replaceAll_skip pat r s c hit, List.map_cons, List.map_cons, ih s (by omega)]

theorem map_hard_commaForm (s : Str) : (commaForm s).map hard = s.map hard := by
  induction s with
  | nil => rfl
  | cons c s ih =>
    have hc : hard (if c = ' ' then ',' else c) = hard c := by
      by_cases h : c = ' '
      · subst h; decide
      · simp [h]
    simp only [commaForm, List.map_cons] at ih ⊢
    rw [ih, hc]

theorem infix_of_map (f : Char → Char) (u s : Str) (h : u <:+: s.map f) :
    ∃ w, w <:+: s ∧ w.map f = u := by
  obtain ⟨x, y, hxy⟩ := h
  obtain ⟨l1, l2, hs, h1, -⟩ := List.map_eq_append_iff.1 hxy.symm
  obtain ⟨l3, l4, hs2, -, h4⟩ := List.map_eq_append_iff.1 h1
  exact ⟨l4, ⟨l3, l2, by rw [hs, hs2]⟩, h4⟩

theorem mem_softForms (u : Str) : ∀ w : Str, w.map hard = u → w ∈ softForms u := by
  induction u with
  | nil =>
    intro w h
    have : w = [] := List.map_eq_nil_iff.1 h
    simp [this, softForms]
  | cons c u ih =>
    intro w h
    obtain ⟨a, w2, rfl, ha, hw2⟩ := List.map_eq_cons_iff.1 h
    have hmem := ih w2 hw2
    have hin : a ∈ (if c = '_' then [' ', ',', '_'] else [c]) := by
      unfold hard at ha
      by_cases h1 : a = ' ' ∨ a = ','
      · rw [if_pos h1] at ha
        rw [if_pos ha.symm]
        rcases h1 with h1 | h1 <;> simp [h1]
      · rw [if_neg h1] at ha
        subst ha
        by_cases h2 : a = '_' <;> simp [h2]
    simp only [softForms, List.mem_flatMap, List.mem_map]
    exact ⟨a, hin, w2, hmem, rfl⟩

/-- A word that occurs after the rewrites occurred before them in one of its soft
forms. -/
theorem occ_soft (w s t : Str) (hst : t.map hard = s.map hard) (h : w <:+: t) :
    ∃ v ∈ softForms (w.map hard), v <:+: s := by
  have h1 : w.map hard <:+: s.map hard := hst ▸ h.map hard
  obtain ⟨v, hv, hvm⟩ := infix_of_map hard _ s h1
  exact ⟨v, mem_softForms _ v hvm, hv⟩

/-! ## The normalized form of a single-spaced line -/

/-- A single-spaced line is normalized by the comma form and the four repairs,
each a replace-all. -/
theorem normalize_single (line : Str) (h : ¬ "  ".toList <:+: line) :
    normalize line = some (fixDstZone (fixSrcZone (fixNetwork (fixEndpoint (commaForm line))))) := by
  have n1 := stringReplace_noop line "  ".toList " ".toList h
  have n2 : stringReplace line " ".toList ",".toList = some (commaForm line) :=
    stringReplace_map ' ' ',' line
  have n3 : ∀ s, stringReplace s ",Endpoint,Mapper".toList " Endpoint Mapper".toList =
      some (fixEndpoint s) := fun s =>
    stringReplace_replaceAll ',' ' ' "Endpoint,Mapper".toList "Endpoint Mapper".toList s
      (by decide)
  have n4 : ∀ s, stringReplace s "Network,Time".toList "Network Time".toList =
      some (fixNetwork s) := fun s =>
    stringReplace_replaceAll 'N' 'N' "etwork,Time".toList "etwork Time".toList s (by decide)
  have n5 : ∀ s, stringReplace s ",src,zone".toList ",src_zone".toList =
      some (fixSrcZone s) := fun s =>
    stringReplace_replaceAll ',' ',' "src,zone".toList "src_zone".toList s (by decide)
  have n6 : ∀ s, stringReplace s ",dst,zone".toList ",dst_zone".toList =
      some (fixDstZone s) := fun s =>
    stringReplace_replaceAll ',' ',' "dst,zone".toList "dst_zone".toList s (by decide)
  simp only [normalize, n1, n2, n3, n4, n5, n6, Option.some_bind]

/-- The four repairs change characters within space, comma and `_` only. -/
theorem map_hard_repairs (s : Str) :
    (fixDstZone (fixSrcZone (fixNetwork (fixEndpoint (commaForm s))))).map hard =
      s.map hard := by
  unfold fixDstZone fixSrcZone fixNetwork fixEndpoint
  rw [map_hard_replaceAll _ _ (by decide) (by decide) _ _ (Nat.le_refl _),
    map_hard_replaceAll _ _ (by decide) (by decide) _ _ (Nat.le_refl _),
    map_hard_replaceAll _ _ (by decide) (by decide) _ _ (Nat.le_refl _),
    map_hard_replaceAll _ _ (by decide) (by decide) _ _ (Nat.le_refl _),
    map_hard_commaForm]

theorem commaForm_append (a b : Str) : commaForm (a ++ b) = commaForm a ++ commaForm b := by
  simp [commaForm]

theorem commaForm_space_free (s : Str) (h : ' ' ∉ s) : commaForm s = s :=
  map_space_free s h

/-- The comma form of what follows the fields: empty, or a comma and more. -/
theorem commaForm_post (post : Str) (h : post = [] ∨ ∃ p, post = ' ' :: p) :
    commaForm post = [] ∨ ∃ q, commaForm post = ',' :: q := by
  rcases h with rfl | ⟨p, rfl⟩
  · exact Or.inl rfl
  · exact Or.inr ⟨commaForm p, by simp [commaForm]⟩

/-- A replace-all whose replacement starts with the character at hand, or that
finds no occurrence there, leaves that character in place. -/
theorem replaceAll_keeps_head (pat rs s : Str) (r0 c : Char) (hp : pat ≠ [])
    (h : r0 = c ∨ ¬ pat <+: c :: s) : ∃ t, replaceAll pat (r0 :: rs) (c :: s) = c :: t := by
  by_cases hit : pat <+: c :: s
  · obtain ⟨z, hz⟩ := hit
    rcases h with rfl | h
    · exact ⟨rs ++ replaceAll pat (r0 :: rs) z, by rw [← hz, replaceAll_hit pat _ z hp]; rfl⟩
    · exact absurd ⟨z, hz⟩ h
  · exact ⟨_, replaceAll_skip pat _ s c hit⟩

/-- The key first occurs where the line is cut, when it does not occur before the
cut nor across it. -/
theorem first_of_noCross (k P B : Str) (h1 : ¬ k <:+: P) (h2 : noCross k P B) :
    ∀ j, j < P.length → ¬ k <+: (P ++ B).drop j := by
  intro j hj hp
  have hlen := h2 j hj hp
  rw [List.drop_append_of_le_length (by omega)] at hp
  have hp2 : k <+: P.drop j :=
    List.prefix_of_prefix_length_le hp (List.prefix_append _ B)
      (by rw [List.length_drop]; omega)
  exact h1 (hp2.isInfix.trans (List.drop_suffix j P).isInfix)

/-! ## What follows the fields, through the repairs -/

theorem fixEndpoint_led (Q : Str) (hQ : commaLed Q)
    (hE : ¬ ",Endpoint,Mapper".toList <+: Q) : commaLed (fixEndpoint Q) := by
  rcases hQ with rfl | ⟨q, rfl⟩
  · exact Or.inl rfl
  · exact Or.inr (replaceAll_keeps_head _ _ q ' ' ',' (by decide) (Or.inr hE))

theorem fixNetwork_led (Q : Str) (hQ : commaLed Q) : commaLed (fixNetwork Q) := by
  rcases hQ with rfl | ⟨q, rfl⟩
  · exact Or.inl rfl
  · refine Or.inr (replaceAll_keeps_head _ _ q 'N' ',' (by decide) (Or.inr ?_))
    intro h
    exact absurd (List.cons_prefix_cons.1 h).1 (by decide)

theorem fixSrcZone_led (Q : Str) (hQ : commaLed Q) : commaLed (fixSrcZone Q) := by
  rcases hQ with rfl | ⟨q, rfl⟩
  · exact Or.inl rfl
  · exact Or.inr (replaceAll_keeps_head _ _ q ',' ',' (by decide) (Or.inl rfl))

theorem fixDstZone_led (Q : Str) (hQ : commaLed Q) : commaLed (fixDstZone Q) := by
  rcases hQ with rfl | ⟨q, rfl⟩
  · exact Or.inl rfl
  · exact Or.inr (replaceAll_keeps_head _ _ q ',' ',' (by decide) (Or.inl rfl))

theorem repairs_led (Q : Str) (hQ : commaLed Q)
    (hE : ¬ ",Endpoint,Mapper".toList <+: Q) : commaLed (repairs Q) :=
  fixDstZone_led _ (fixSrcZone_led _ (fixNetwork_led _ (fixEndpoint_led Q hQ hE)))

/-- A comma-free stretch `A` before a text that is empty or starts with a comma
holds no start of `Network,Time`, unless `A` ends with `Network` and `Time`
follows the comma. -/
theorem no_network_start (A B : Str) (hA : ',' ∉ A)
    (hB : B = [] ∨ ∃ w, B = ',' :: w ∧ ¬ ("Network".toList <:+ A ∧ "Time".toList <+: w)) :
    ∀ j, j < A.length → ¬ "Network,Time".toList <+: (A ++ B).drop j :=
  no_start_of_sep ',' "Network".toList "Time".toList A B (by decide) hA hB

/-! ## The service with two words -/

/-- The repairs on a comma-form line that holds `service=x,Endpoint,Mapper`. -/
theorem repairs_service (P x Q : Str) (hx : ',' ∉ x) (hQ : commaLed Q)
    (hE : ¬ ",Endpoint,Mapper".toList <+: Q) :
    repairs (P ++ ("service=".toList ++ (x ++ (",Endpoint,Mapper".toList ++ Q)))) =
      repairs P ++ ("service=".toList ++ (x ++ (" Endpoint Mapper".toList ++ repairs Q))) := by
  have hKx : ',' ∉ "service=".toList ++ x := by
    simp only [List.mem_append, not_or]
    exact ⟨by decide, hx⟩
  have hM3 : ',' ∉ "service=".toList ++ (x ++ " Endpoint Mapper".toList) := by
    simp only [List.mem_append, not_or]
    exact ⟨by decide, hx, by decide⟩
  -- Endpoint Mapper
  have s3 : fixEndpoint (P ++ ("service=".toList ++ (x ++ (",Endpoint,Mapper".toList ++ Q)))) =
      fixEndpoint P ++
        ("service=".toList ++ (x ++ (" Endpoint Mapper".toList ++ fixEndpoint Q))) := by
    unfold fixEndpoint
    rw [replaceAll_append _ _ (by decide) _ _ P (Nat.le_refl _)
      (noCross_of_head _ P "service=".toList _ (by decide))]
    congr 1
    rw [← List.append_assoc, replaceAll_pass ",Endpoint,Mapper".toList _ ("service=".toList ++ x) _
      (no_start_of_first ',' "Endpoint,Mapper".toList _ _ hKx), replaceAll_hit _ _ _ (by decide), List.append_assoc]
  -- Network Time
  have hQ3 := fixEndpoint_led Q hQ hE
  have s4 : fixNetwork (fixEndpoint P ++
      ("service=".toList ++ (x ++ (" Endpoint Mapper".toList ++ fixEndpoint Q)))) =
      fixNetwork (fixEndpoint P) ++
        ("service=".toList ++ (x ++ (" Endpoint Mapper".toList ++ fixNetwork (fixEndpoint Q)))) := by
    unfold fixNetwork
    rw [replaceAll_append _ _ (by decide) _ _ _ (Nat.le_refl _)
      (noCross_of_head _ _ "service=".toList _ (by decide))]
    congr 1
    have e : "service=".toList ++ (x ++ (" Endpoint Mapper".toList ++ fixEndpoint Q)) =
        ("service=".toList ++ (x ++ " Endpoint Mapper".toList)) ++ fixEndpoint Q := by simp
    have hsuf : ¬ "Network".toList <:+
        "service=".toList ++ (x ++ " Endpoint Mapper".toList) := by
      intro h
      have h2 : "Network".toList <:+ " Endpoint Mapper".toList :=
        List.suffix_of_suffix_length_le h
          ⟨"service=".toList ++ x, by simp⟩ (by decide)
      exact absurd h2 (by decide)
    rw [e, replaceAll_pass _ _ _ _ (no_network_start _ _ hM3 (by
      rcases hQ3 with h | ⟨w, h⟩
      · exact Or.inl h
      · exact Or.inr ⟨w, h, fun hh => hsuf hh.1⟩))]
    simp
  -- zones
  have hQ4 := fixNetwork_led _ hQ3
  have s5 : fixSrcZone (fixNetwork (fixEndpoint P) ++
      ("service=".toList ++ (x ++ (" Endpoint Mapper".toList ++ fixNetwork (fixEndpoint Q))))) =
      fixSrcZone (fixNetwork (fixEndpoint P)) ++
        ("service=".toList ++ (x ++ (" Endpoint Mapper".toList ++
          fixSrcZone (fixNetwork (fixEndpoint Q))))) := by
    unfold fixSrcZone
    rw [replaceAll_append _ _ (by decide) _ _ _ (Nat.le_refl _)
      (noCross_of_head _ _ "service=".toList _ (by decide))]
    have hs := no_start_of_first ',' "src,zone".toList _
      (fixNetwork (fixEndpoint Q)) hM3
    congr 1
    have e : "service=".toList ++ (x ++ (" Endpoint Mapper".toList ++
        fixNetwork (fixEndpoint Q))) =
        ("service=".toList ++ (x ++ " Endpoint Mapper".toList)) ++
          fixNetwork (fixEndpoint Q) := by simp
    rw [e, replaceAll_pass ",src,zone".toList _ _ _ hs]
    simp
  have s6 : fixDstZone (fixSrcZone (fixNetwork (fixEndpoint P)) ++
      ("service=".toList ++ (x ++ (" Endpoint Mapper".toList ++
        fixSrcZone (fixNetwork (fixEndpoint Q)))))) =
      fixDstZone (fixSrcZone (fixNetwork (fixEndpoint P))) ++
        ("service=".toList ++ (x ++ (" Endpoint Mapper".toList ++
          fixDstZone (fixSrcZone (fixNetwork (fixEndpoint Q)))))) := by
    unfold fixDstZone
    rw [replaceAll_append _ _ (by decide) _ _ _ (Nat.le_refl _)
      (noCross_of_head _ _ "service=".toList _ (by decide))]
    have hs := no_start_of_first ',' "dst,zone".toList _
      (fixSrcZone (fixNetwork (fixEndpoint Q))) hM3
    congr 1
    have e : "service=".toList ++ (x ++ (" Endpoint Mapper".toList ++
        fixSrcZone (fixNetwork (fixEndpoint Q)))) =
        ("service=".toList ++ (x ++ " Endpoint Mapper".toList)) ++
          fixSrcZone (fixNetwork (fixEndpoint Q)) := by simp
    rw [e, replaceAll_pass ",dst,zone".toList _ _ _ hs]
    simp
  unfold repairs
  rw [s3, s4, s5, s6]

/-! ## The zone keys -/

/-- A fixed text `K` in which the pattern starts nowhere, and which no tail of
the pattern continues, is passed over. -/
theorem pass_clash (pat r K B : Str)
    (h : ∀ j, j < K.length → ¬ (pat <+: K.drop j ∨ K.drop j <+: pat)) :
    replaceAll pat r (K ++ B) = K ++ replaceAll pat r B :=
  replaceAll_pass pat r K B (no_start_of_clash pat K B h)

/-- A stretch without the first character of the pattern is passed over. -/
theorem pass_free (pat r A B : Str) (c : Char) (hc : pat.head? = some c) (h : c ∉ A) :
    replaceAll pat r (A ++ B) = A ++ replaceAll pat r B := by
  cases pat with
  | nil => simp at hc
  | cons p0 ps =>
    simp only [List.head?_cons, Option.some.injEq] at hc
    subst hc
    exact replaceAll_pass _ r A B (no_start_of_first p0 ps A B h)

/-- The repairs on a comma-form line that holds `,src,zone=sz,dst,zone=dz`. -/
theorem repairs_zones (P sz dz Q : Str) (hsz : ',' ∉ sz) (hdz : ',' ∉ dz)
    (hQ : commaLed Q) (hE : ¬ ",Endpoint,Mapper".toList <+: Q)
    (hN : ¬ ("Network".toList <:+ dz ∧ ",Time".toList <+: Q)) :
    repairs (P ++ (",src,zone=".toList ++ (sz ++ (",dst,zone=".toList ++ (dz ++ Q))))) =
      repairs P ++
        (",src_zone=".toList ++ (sz ++ (",dst_zone=".toList ++ (dz ++ repairs Q)))) := by
  -- Endpoint Mapper
  have s3 : fixEndpoint
      (P ++ (",src,zone=".toList ++ (sz ++ (",dst,zone=".toList ++ (dz ++ Q))))) =
      fixEndpoint P ++
        (",src,zone=".toList ++ (sz ++ (",dst,zone=".toList ++ (dz ++ fixEndpoint Q)))) := by
    unfold fixEndpoint
    rw [replaceAll_append _ _ (by decide) _ _ P (Nat.le_refl _)
      (noCross_of_head _ P ",src,zone=".toList _ (by decide))]
    congr 1
    rw [pass_clash ",Endpoint,Mapper".toList _ ",src,zone=".toList _ (by decide),
      pass_free ",Endpoint,Mapper".toList _ sz _ ',' rfl hsz,
      pass_clash ",Endpoint,Mapper".toList _ ",dst,zone=".toList _ (by decide),
      pass_free ",Endpoint,Mapper".toList _ dz _ ',' rfl hdz]
  -- Network Time
  have hQ3 := fixEndpoint_led Q hQ hE
  have hN3 : fixEndpoint Q = [] ∨ ∃ w, fixEndpoint Q = ',' :: w ∧
      ¬ ("Network".toList <:+ dz ∧ "Time".toList <+: w) := by
    rcases hQ3 with h | ⟨w, h⟩
    · exact Or.inl h
    · refine Or.inr ⟨w, h, fun hh => hN ⟨hh.1, ?_⟩⟩
      have h1 : ",Time".toList <+: fixEndpoint Q := by
        rw [h]
        exact List.cons_prefix_cons.2 ⟨rfl, hh.2⟩
      exact prefix_of_replaceAll ",Endpoint,Mapper".toList "Endpoint Mapper".toList ' '
        (by decide) ",Time".toList Q (by decide) h1
  have s4 : fixNetwork (fixEndpoint P ++
      (",src,zone=".toList ++ (sz ++ (",dst,zone=".toList ++ (dz ++ fixEndpoint Q))))) =
      fixNetwork (fixEndpoint P) ++
        (",src,zone=".toList ++ (sz ++ (",dst,zone=".toList ++
          (dz ++ fixNetwork (fixEndpoint Q))))) := by
    unfold fixNetwork
    rw [replaceAll_append _ _ (by decide) _ _ _ (Nat.le_refl _)
      (noCross_of_head _ _ ",src,zone=".toList _ (by decide))]
    congr 1
    rw [pass_clash "Network,Time".toList _ ",src,zone=".toList _ (by decide),
      replaceAll_pass "Network,Time".toList _ sz _
        (no_network_start sz (",dst,zone=".toList ++ (dz ++ fixEndpoint Q)) hsz
          (Or.inr ⟨"dst,zone=".toList ++ (dz ++ fixEndpoint Q), rfl,
            fun hh => absurd (List.cons_prefix_cons.1 hh.2).1 (by decide)⟩)),
      pass_clash "Network,Time".toList _ ",dst,zone=".toList _ (by decide),
      replaceAll_pass "Network,Time".toList _ dz _
        (no_network_start dz (fixEndpoint Q) hdz hN3)]
  -- src zone
  have s5 : fixSrcZone (fixNetwork (fixEndpoint P) ++
      (",src,zone=".toList ++ (sz ++ (",dst,zone=".toList ++
        (dz ++ fixNetwork (fixEndpoint Q)))))) =
      fixSrcZone (fixNetwork (fixEndpoint P)) ++
        (",src_zone=".toList ++ (sz ++ (",dst,zone=".toList ++
          (dz ++ fixSrcZone (fixNetwork (fixEndpoint Q)))))) := by
    unfold fixSrcZone
    rw [replaceAll_append _ _ (by decide) _ _ _ (Nat.le_refl _)
      (noCross_of_head _ _ ",src,zone=".toList _ (by decide))]
    congr 1
    have e : ∀ X : Str, ",src,zone=".toList ++ X = ",src,zone".toList ++ ("=".toList ++ X) :=
      fun _ => rfl
    rw [e, replaceAll_hit ",src,zone".toList _ _ (by decide),
      pass_clash ",src,zone".toList _ "=".toList _ (by decide),
      pass_free ",src,zone".toList _ sz _ ',' rfl hsz,
      pass_clash ",src,zone".toList _ ",dst,zone=".toList _ (by decide),
      pass_free ",src,zone".toList _ dz _ ',' rfl hdz]
    rfl
  -- dst zone
  have s6 : fixDstZone (fixSrcZone (fixNetwork (fixEndpoint P)) ++
      (",src_zone=".toList ++ (sz ++ (",dst,zone=".toList ++
        (dz ++ fixSrcZone (fixNetwork (fixEndpoint Q)))))))  =
      fixDstZone (fixSrcZone (fixNetwork (fixEndpoint P))) ++
        (",src_zone=".toList ++ (sz ++ (",dst_zone=".toList ++
          (dz ++ fixDstZone (fixSrcZone (fixNetwork (fixEndpoint Q))))))) := by
    unfold fixDstZone
    rw [replaceAll_append _ _ (by decide) _ _ _ (Nat.le_refl _)
      (noCross_of_head _ _ ",src_zone=".toList _ (by decide))]
    congr 1
    have e : ∀ X : Str, ",dst,zone=".toList ++ X = ",dst,zone".toList ++ ("=".toList ++ X) :=
      fun _ => rfl
    rw [pass_clash ",dst,zone".toList _ ",src_zone=".toList _ (by decide),
      pass_free ",dst,zone".toList _ sz _ ',' rfl hsz,
      e, replaceAll_hit ",dst,zone".toList _ _ (by decide),
      pass_clash ",dst,zone".toList _ "=".toList _ (by decide),
      pass_free ",dst,zone".toList _ dz _ ',' rfl hdz]
    rfl
  unfold repairs
  rw [s3, s4, s5, s6]

/-! ## The claims -/

/-- C1. With hostname resolution off, every value `getField` returns, by index or
by key, is free of commas, and for every normalized line (any string) the
assembled record is the twelve extracted values joined by eleven commas: it holds
exactly eleven `,` and splits on `,` into exactly those twelve fields. -/
theorem assemble_twelve_fields (dns : Dns) (st : Resolver) (ins : Str) :
    (∀ i : Int, ∃ v, getFieldInt ins i = some v ∧ ',' ∉ v) ∧
    (∀ key : Str, ∃ v, getFieldStr ins key = some v ∧ ',' ∉ v) ∧
    ∃ sout cols, assemble false false dns st ins = some (sout, st) ∧
      columns ins = cols.map some ∧ cols.length = 12 ∧ (∀ c ∈ cols, ',' ∉ c) ∧
      sout = [','].intercalate cols ∧ sout.count ',' = 11 ∧ sout.splitOn ',' = cols := by
  refine ⟨getFieldInt_comma_free ins, getFieldStr_comma_free ins, ?_⟩
  obtain ⟨cols, hcols, hlen, hfree, hrec⟩ := assemble_off dns st ins
  refine ⟨_, cols, hrec, hcols, hlen, hfree, rfl, ?_, ?_⟩
  · rw [count_intercalate ',' cols hfree, hlen]
  · apply List.splitOn_intercalate cols ',' hfree
    intro h
    simp [h] at hlen

/-- C2. For values `m, d, t, p, s, sz, dz, a, src, sp, dst, dp` without space,
comma, `=` and forbidden word, the raw line
`m d t policy_id=p service=s src_zone=sz dst_zone=dz action=a src=src src_port=sp dst=dst dst_port=dp`,
when it is single-spaced (no two spaces in a row), is normalized, and the record
assembled from it with resolution off is `m,d,t,p,s,sz,dz,a,src,sp,dst,dp`. -/
theorem device_line_end_to_end (dns : Dns) (st : Resolver)
    (m d t p s sz dz a src sp dst dp : Str)
    (hv : ∀ v ∈ [m, d, t, p, s, sz, dz, a, src, sp, dst, dp], plainValue v)
    (hsingle : ¬ "  ".toList <:+:
      " ".toList.intercalate (deviceFields m d t p s sz dz a src sp dst dp)) :
    ∃ ins, normalize (" ".toList.intercalate (deviceFields m d t p s sz dz a src sp dst dp)) =
        some ins ∧
      assemble false false dns st ins =
        some (",".toList.intercalate [m, d, t, p, s, sz, dz, a, src, sp, dst, dp], st) := by
  have hm := hv m (by simp)
  have hd := hv d (by simp)
  have ht := hv t (by simp)
  have hp := hv p (by simp)
  have hs := hv s (by simp)
  have hsz := hv sz (by simp)
  have hdz := hv dz (by simp)
  have ha := hv a (by simp)
  have hsrc := hv src (by simp)
  have hsp := hv sp (by simp)
  have hdst := hv dst (by simp)
  have hdp := hv dp (by simp)
  have hspace : ∀ x ∈ deviceFields m d t p s sz dz a src sp dst dp, ' ' ∉ x := by
    simp only [deviceFields, List.forall_mem_cons, List.not_mem_nil, IsEmpty.forall_iff,
      implies_true, and_true]
    repeat' apply And.intro
    all_goals first
      | exact (by assumption : plainValue _).1
      | exact keyed_free ' ' _ _ (by decide) (by decide) (by assumption : plainValue _).1
  have hcomma : ∀ x ∈ deviceFields m d t p s sz dz a src sp dst dp, ',' ∉ x := by
    simp only [deviceFields, List.forall_mem_cons, List.not_mem_nil, IsEmpty.forall_iff,
      implies_true, and_true]
    repeat' apply And.intro
    all_goals first
      | exact (by assumption : plainValue _).2.1
      | exact keyed_free ',' _ _ (by decide) (by decide) (by assumption : plainValue _).2.1
  have n1 := stringReplace_noop _ "  ".toList " ".toList hsingle
  have n2 := stringReplace_spaces _ hspace
  have hE : ∀ x ∈ [m, d, t, keyed "policy_id".toList p, keyed "service".toList s, keyed "src_zone".toList sz, keyed "dst_zone".toList dz, keyed "action".toList a, keyed "src".toList src, keyed "src_port".toList sp, keyed "dst".toList dst, keyed "dst_port".toList dp], ¬ "Endpoint".toList <:+: x := by
    simp only [List.forall_mem_cons, List.not_mem_nil, IsEmpty.forall_iff, implies_true,
      and_true]
    repeat' apply And.intro
    all_goals first
      | exact plain_no_occ _ _ (by assumption) (by decide)
      | exact keyed_no_occ _ _ _ (by assumption) (by decide) (by decide) (by decide)
  have hN : ∀ x ∈ [m, d, t, keyed "policy_id".toList p, keyed "service".toList s, keyed "src_zone".toList sz, keyed "dst_zone".toList dz, keyed "action".toList a, keyed "src".toList src, keyed "src_port".toList sp, keyed "dst".toList dst, keyed "dst_port".toList dp], ¬ "Network".toList <:+: x := by
    simp only [List.forall_mem_cons, List.not_mem_nil, IsEmpty.forall_iff, implies_true,
      and_true]
    repeat' apply And.intro
    all_goals first
      | exact plain_no_occ _ _ (by assumption) (by decide)
      | exact keyed_no_occ _ _ _ (by assumption) (by decide) (by decide) (by decide)
  have hS : ∀ x ∈ deviceFields m d t p s sz dz a src sp dst dp, ¬ "src".toList <:+ x := by
    simp only [deviceFields, List.forall_mem_cons, List.not_mem_nil, IsEmpty.forall_iff,
      implies_true, and_true]
    repeat' apply And.intro
    all_goals first
      | exact plain_no_suffix _ _ (by assumption) (by decide)
      | exact keyed_no_suffix _ _ _ (by assumption) (by decide) (by decide)
  have hD : ∀ x ∈ deviceFields m d t p s sz dz a src sp dst dp, ¬ "dst".toList <:+ x := by
    simp only [deviceFields, List.forall_mem_cons, List.not_mem_nil, IsEmpty.forall_iff,
      implies_true, and_true]
    repeat' apply And.intro
    all_goals first
      | exact plain_no_suffix _ _ (by assumption) (by decide)
      | exact keyed_no_suffix _ _ _ (by assumption) (by decide) (by decide)
  have a3 : ¬ ",Endpoint,Mapper".toList <:+: (",".toList.intercalate (deviceFields m d t p s sz dz a src sp dst dp)) := fun h => by
    have h1 : "Endpoint".toList <:+: (",".toList.intercalate (deviceFields m d t p s sz dz a src sp dst dp)) :=
      (by decide : "Endpoint".toList <:+: ",Endpoint,Mapper".toList).trans h
    obtain ⟨seg, hseg, hin⟩ := occ_in_segment ',' _ _ (by decide) (by decide) h1
    exact hE seg hseg hin
  have a4 : ¬ "Network,Time".toList <:+: (",".toList.intercalate (deviceFields m d t p s sz dz a src sp dst dp)) := fun h => by
    have h1 : "Network".toList <:+: (",".toList.intercalate (deviceFields m d t p s sz dz a src sp dst dp)) :=
      (by decide : "Network".toList <:+: "Network,Time".toList).trans h
    obtain ⟨seg, hseg, hin⟩ := occ_in_segment ',' _ _ (by decide) (by decide) h1
    exact hN seg hseg hin
  have a5 : ¬ ",src,zone".toList <:+: (",".toList.intercalate (deviceFields m d t p s sz dz a src sp dst dp)) := fun h => by
    have h1 : ("src".toList ++ [',']) <:+: (",".toList.intercalate (deviceFields m d t p s sz dz a src sp dst dp)) :=
      (by decide : ("src".toList ++ [',']) <:+: ",src,zone".toList).trans h
    obtain ⟨seg, hseg, hsuf⟩ := occ_ends_segment ',' "src".toList _ (by decide) hcomma h1
    exact hS seg hseg hsuf
  have a6 : ¬ ",dst,zone".toList <:+: (",".toList.intercalate (deviceFields m d t p s sz dz a src sp dst dp)) := fun h => by
    have h1 : ("dst".toList ++ [',']) <:+: (",".toList.intercalate (deviceFields m d t p s sz dz a src sp dst dp)) :=
      (by decide : ("dst".toList ++ [',']) <:+: ",dst,zone".toList).trans h
    obtain ⟨seg, hseg, hsuf⟩ := occ_ends_segment ',' "dst".toList _ (by decide) hcomma h1
    exact hD seg hseg hsuf
  have n3 := stringReplace_noop _ ",Endpoint,Mapper".toList " Endpoint Mapper".toList a3
  have n4 := stringReplace_noop _ "Network,Time".toList "Network Time".toList a4
  have n5 := stringReplace_noop _ ",src,zone".toList ",src_zone".toList a5
  have n6 := stringReplace_noop _ ",dst,zone".toList ",dst_zone".toList a6
  refine ⟨",".toList.intercalate (deviceFields m d t p s sz dz a src sp dst dp),
    by simp only [normalize, n1, n2, n3, n4, n5, n6, Option.some_bind], ?_⟩
  have g0 : getFieldInt (",".toList.intercalate (deviceFields m d t p s sz dz a src sp dst dp)) 0 = some m :=
    getFieldInt_segment _ hcomma 0 m rfl
  have g1 : getFieldInt (",".toList.intercalate (deviceFields m d t p s sz dz a src sp dst dp)) 1 = some d :=
    getFieldInt_segment _ hcomma 1 d rfl
  have g2 : getFieldInt (",".toList.intercalate (deviceFields m d t p s sz dz a src sp dst dp)) 2 = some t :=
    getFieldInt_segment _ hcomma 2 t rfl
  have o3 : ∀ x ∈ [m, d, t], ¬ "policy_id".toList <:+: x := by
    simp only [List.forall_mem_cons, List.not_mem_nil, IsEmpty.forall_iff, implies_true,
      and_true]
    repeat' apply And.intro
    all_goals exact plain_no_occ _ _ (by assumption) (by decide)
  have g3 : getFieldStr (",".toList.intercalate (deviceFields m d t p s sz dz a src sp dst dp)) "policy_id".toList = some p :=
    (getFieldStr_segment [m, d, t]
      [keyed "service".toList s, keyed "src_zone".toList sz, keyed "dst_zone".toList dz, keyed "action".toList a, keyed "src".toList src, keyed "src_port".toList sp, keyed "dst".toList dst, keyed "dst_port".toList dp] "policy_id".toList ('=' :: p) (by decide)
      (keyed_free ',' "policy_id".toList p (by decide) (by decide) (by assumption : plainValue _).2.1)
      o3).trans (congrArg some (afterChar_keyed "policy_id".toList p (by decide)))
  have o4 : ∀ x ∈ [m, d, t, keyed "policy_id".toList p], ¬ "service".toList <:+: x := by
    simp only [List.forall_mem_cons, List.not_mem_nil, IsEmpty.forall_iff, implies_true,
      and_true]
    repeat' apply And.intro
    all_goals first
      | exact plain_no_occ _ _ (by assumption) (by decide)
      | exact keyed_no_occ _ _ _ (by assumption) (by decide) (by decide) (by decide)
  have g4 : getFieldStr (",".toList.intercalate (deviceFields m d t p s sz dz a src sp dst dp)) "service".toList = some s :=
    (getFieldStr_segment [m, d, t, keyed "policy_id".toList p]
      [keyed "src_zone".toList sz, keyed "dst_zone".toList dz, keyed "action".toList a, keyed "src".toList src, keyed "src_port".toList sp, keyed "dst".toList dst, keyed "dst_port".toList dp] "service".toList ('=' :: s) (by decide)
      (keyed_free ',' "service".toList s (by decide) (by decide) (by assumption : plainValue _).2.1)
      o4).trans (congrArg some (afterChar_keyed "service".toList s (by decide)))
  have o5 : ∀ x ∈ [m, d, t, keyed "policy_id".toList p, keyed "service".toList s], ¬ "src_zone".toList <:+: x := by
    simp only [List.forall_mem_cons, List.not_mem_nil, IsEmpty.forall_iff, implies_true,
      and_true]
    repeat' apply And.intro
    all_goals first
      | exact plain_no_occ _ _ (by assumption) (by decide)
      | exact keyed_no_occ _ _ _ (by assumption) (by decide) (by decide) (by decide)
  have g5 : getFieldStr (",".toList.intercalate (deviceFields m d t p s sz dz a src sp dst dp)) "src_zone".toList = some sz :=
    (getFieldStr_segment [m, d, t, keyed "policy_id".toList p, keyed "service".toList s]
      [keyed "dst_zone".toList dz, keyed "action".toList a, keyed "src".toList src, keyed "src_port".toList sp, keyed "dst".toList dst, keyed "dst_port".toList dp] "src_zone".toList ('=' :: sz) (by decide)
      (keyed_free ',' "src_zone".toList sz (by decide) (by decide) (by assumption : plainValue _).2.1)
      o5).trans (congrArg some (afterChar_keyed "src_zone".toList sz (by decide)))
  have o6 : ∀ x ∈ [m, d, t, keyed "policy_id".toList p, keyed "service".toList s, keyed "src_zone".toList sz], ¬ "dst_zone".toList <:+: x := by
    simp only [List.forall_mem_cons, List.not_mem_nil, IsEmpty.forall_iff, implies_true,
      and_true]
    repeat' apply And.intro
    all_goals first
      | exact plain_no_occ _ _ (by assumption) (by decide)
      | exact keyed_no_occ _ _ _ (by assumption) (by decide) (by decide) (by decide)
  have g6 : getFieldStr (",".toList.intercalate (deviceFields m d t p s sz dz a src sp dst dp)) "dst_zone".toList = some dz :=
    (getFieldStr_segment [m, d, t, keyed "policy_id".toList p, keyed "service".toList s, keyed "src_zone".toList sz]
      [keyed "action".toList a, keyed "src".toList src, keyed "src_port".toList sp, keyed "dst".toList dst, keyed "dst_port".toList dp] "dst_zone".toList ('=' :: dz) (by decide)
      (keyed_free ',' "dst_zone".toList dz (by decide) (by decide) (by assumption : plainValue _).2.1)
      o6).trans (congrArg some (afterChar_keyed "dst_zone".toList dz (by decide)))
  have o7 : ∀ x ∈ [m, d, t, keyed "policy_id".toList p, keyed "service".toList s, keyed "src_zone".toList sz, keyed "dst_zone".toList dz], ¬ "action".toList <:+: x := by
    simp only [List.forall_mem_cons, List.not_mem_nil, IsEmpty.forall_iff, implies_true,
      and_true]
    repeat' apply And.intro
    all_goals first
      | exact plain_no_occ _ _ (by assumption) (by decide)
      | exact keyed_no_occ _ _ _ (by assumption) (by decide) (by decide) (by decide)
  have g7 : getFieldStr (",".toList.intercalate (deviceFields m d t p s sz dz a src sp dst dp)) "action".toList = some a :=
    (getFieldStr_segment [m, d, t, keyed "policy_id".toList p, keyed "service".toList s, keyed "src_zone".toList sz, keyed "dst_zone".toList dz]
      [keyed "src".toList src, keyed "src_port".toList sp, keyed "dst".toList dst, keyed "dst_port".toList dp] "action".toList ('=' :: a) (by decide)
      (keyed_free ',' "action".toList a (by decide) (by decide) (by assumption : plainValue _).2.1)
      o7).trans (congrArg some (afterChar_keyed "action".toList a (by decide)))
  have o8 : ∀ x ∈ [m, d, t, keyed "policy_id".toList p, keyed "service".toList s, keyed "src_zone".toList sz, keyed "dst_zone".toList dz, keyed "action".toList a], ¬ "src=".toList <:+: x := by
    simp only [List.forall_mem_cons, List.not_mem_nil, IsEmpty.forall_iff, implies_true,
      and_true]
    repeat' apply And.intro
    all_goals first
      | exact plain_no_occ _ _ (by assumption) (by decide)
      | exact keyed_no_occ _ _ _ (by assumption) (by decide) (by decide) (by decide)
  have g8 : getFieldStr (",".toList.intercalate (deviceFields m d t p s sz dz a src sp dst dp)) "src=".toList = some src :=
    (getFieldStr_segment [m, d, t, keyed "policy_id".toList p, keyed "service".toList s, keyed "src_zone".toList sz, keyed "dst_zone".toList dz, keyed "action".toList a]
      [keyed "src_port".toList sp, keyed "dst".toList dst, keyed "dst_port".toList dp] "src=".toList src (by decide)
      (keyed_free ',' "src".toList src (by decide) (by decide) (by assumption : plainValue _).2.1)
      o8).trans (congrArg some (afterChar_keyed "src".toList src (by decide)))
  have o9 : ∀ x ∈ [m, d, t, keyed "policy_id".toList p, keyed "service".toList s, keyed "src_zone".toList sz, keyed "dst_zone".toList dz, keyed "action".toList a, keyed "src".toList src], ¬ "src_port".toList <:+: x := by
    simp only [List.forall_mem_cons, List.not_mem_nil, IsEmpty.forall_iff, implies_true,
      and_true]
    repeat' apply And.intro
    all_goals first
      | exact plain_no_occ _ _ (by assumption) (by decide)
      | exact keyed_no_occ _ _ _ (by assumption) (by decide) (by decide) (by decide)
  have g9 : getFieldStr (",".toList.intercalate (deviceFields m d t p s sz dz a src sp dst dp)) "src_port".toList = some sp :=
    (getFieldStr_segment [m, d, t, keyed "policy_id".toList p, keyed "service".toList s, keyed "src_zone".toList sz, keyed "dst_zone".toList dz, keyed "action".toList a, keyed "src".toList src]
      [keyed "dst".toList dst, keyed "dst_port".toList dp] "src_port".toList ('=' :: sp) (by decide)
      (keyed_free ',' "src_port".toList sp (by decide) (by decide) (by assumption : plainValue _).2.1)
      o9).trans (congrArg some (afterChar_keyed "src_port".toList sp (by decide)))
  have o10 : ∀ x ∈ [m, d, t, keyed "policy_id".toList p, keyed "service".toList s, keyed "src_zone".toList sz, keyed "dst_zone".toList dz, keyed "action".toList a, keyed "src".toList src, keyed "src_port".toList sp], ¬ "dst=".toList <:+: x := by
    simp only [List.forall_mem_cons, List.not_mem_nil, IsEmpty.forall_iff, implies_true,
      and_true]
    repeat' apply And.intro
    all_goals first
      | exact plain_no_occ _ _ (by assumption) (by decide)
      | exact keyed_no_occ _ _ _ (by assumption) (by decide) (by decide) (by decide)
  have g10 : getFieldStr (",".toList.intercalate (deviceFields m d t p s sz dz a src sp dst dp)) "dst=".toList = some dst :=
    (getFieldStr_segment [m, d, t, keyed "policy_id".toList p, keyed "service".toList s, keyed "src_zone".toList sz, keyed "dst_zone".toList dz, keyed "action".toList a, keyed "src".toList src, keyed "src_port".toList sp]
      [keyed "dst_port".toList dp] "dst=".toList dst (by decide)
      (keyed_free ',' "dst".toList dst (by decide) (by decide) (by assumption : plainValue _).2.1)
      o10).trans (congrArg some (afterChar_keyed "dst".toList dst (by decide)))
  have o11 : ∀ x ∈ [m, d, t, keyed "policy_id".toList p, keyed "service".toList s, keyed "src_zone".toList sz, keyed "dst_zone".toList dz, keyed "action".toList a, keyed "src".toList src, keyed "src_port".toList sp, keyed "dst".toList dst], ¬ "dst_port".toList <:+: x := by
    simp only [List.forall_mem_cons, List.not_mem_nil, IsEmpty.forall_iff, implies_true,
      and_true]
    repeat' apply And.intro
    all_goals first
      | exact plain_no_occ _ _ (by assumption) (by decide)
      | exact keyed_no_occ _ _ _ (by assumption) (by decide) (by decide) (by decide)
  have g11 : getFieldStr (",".toList.intercalate (deviceFields m d t p s sz dz a src sp dst dp)) "dst_port".toList = some dp :=
    (getFieldStr_segment [m, d, t, keyed "policy_id".toList p, keyed "service".toList s, keyed "src_zone".toList sz, keyed "dst_zone".toList dz, keyed "action".toList a, keyed "src".toList src, keyed "src_port".toList sp, keyed "dst".toList dst]
      [] "dst_port".toList ('=' :: dp) (by decide)
      (keyed_free ',' "dst_port".toList dp (by decide) (by decide) (by assumption : plainValue _).2.1)
      o11).trans (congrArg some (afterChar_keyed "dst_port".toList dp (by decide)))
  have e : ",".toList = [','] := rfl
  simp only [assemble, assembleHead, g0, g1, g2, g3, g4, g5, g6, g7, g8, g9, g10, g11,
    Option.some_bind, addressColumn, addColumn, delim, Bool.false_eq_true, if_false]
  simp only [e, intercalate_cons_cons, intercalate_single, List.append_assoc,
    List.singleton_append, List.cons_append, List.nil_append]

set_option maxRecDepth 20000 in
/-- C2, at the line of scenario 1 of the specification. -/
theorem device_line_end_to_end_witness :
    ∃ ins, normalize "Jan 05 10:22:31 policy_id=14 service=http src_zone=trust dst_zone=untrust action=Permit src=10.1.1.5 src_port=4041 dst=8.8.8.8 dst_port=80".toList = some ins ∧
      assemble false false noDns Resolver.init ins =
        some ("Jan,05,10:22:31,14,http,trust,untrust,Permit,10.1.1.5,4041,8.8.8.8,80".toList,
          Resolver.init) :=
  device_line_end_to_end noDns Resolver.init "Jan".toList "05".toList "10:22:31".toList
    "14".toList "http".toList "trust".toList "untrust".toList "Permit".toList
    "10.1.1.5".toList "4041".toList "8.8.8.8".toList "80".toList
    (by unfold plainValue; decide) (by decide)

/-- C3 (the code at the failing input). The raw line ` Log statistics;` is
normalized to `,Log,statistics;`, which holds the marker, at position 0;
`stringFind` answers `0` as it does for a line without the marker, and the row is
written. -/
theorem statistics_marker_at_start_is_written :
    normalize " Log statistics;".toList = some ",Log,statistics;".toList ∧
    ",Log,statistics;".toList <:+: ",Log,statistics;".toList ∧
    stringFind ",Log,statistics;".toList ",Log,statistics;".toList = 0 ∧
    processLine false false noDns Resolver.init " Log statistics;".toList =
      some (some ",Log,statistics;,,,,,,,,,".toList, Resolver.init) := by
  refine ⟨by rfl, by decide, by rfl, by rfl⟩

/-- C4 (the code at the failing input). Three spaces between `a` and `b`: the
pass of `stringReplace` that trims double spaces resumes one position after the
replacement and leaves two of the three, so a two-space substring remains after
step 1; the normalized line is `a,,b`, with two delimiters between the tokens,
and in the record the second column is empty and `b` stands in the third. -/
theorem three_spaces_two_delimiters :
    stringReplace ("a".toList ++ List.replicate 3 ' ' ++ "b".toList) "  ".toList " ".toList =
      some "a  b".toList ∧
    "  ".toList <:+: "a  b".toList ∧
    normalize ("a".toList ++ List.replicate 3 ' ' ++ "b".toList) = some "a,,b".toList ∧
    normalize ("a".toList ++ List.replicate 3 ' ' ++ "b".toList) ≠
      some ("a".toList ++ ",".toList ++ "b".toList) ∧
    processLine false false noDns Resolver.init
        ("a".toList ++ List.replicate 3 ' ' ++ "b".toList) =
      some (some "a,,b,,,,,,,,,".toList, Resolver.init) := by
  refine ⟨by rfl, by decide, by rfl, by decide, by rfl⟩

/-- Where step 1 does what its comment says. For exactly two spaces between
non-empty space-free tokens `a` and `b`: step 1 leaves `a`, one space, `b`, in
which no two-space substring remains; and when none of the four repair patterns
occurs in `a,b`, the normalized line is `a,b`, with one delimiter between the
tokens. -/
theorem two_spaces_one_delimiter (a b : Str) (ha : a ≠ [] ∧ ' ' ∉ a) (hb : b ≠ [] ∧ ' ' ∉ b) :
    stringReplace (a ++ List.replicate 2 ' ' ++ b) "  ".toList " ".toList =
      some (a ++ ' ' :: b) ∧
    ¬ "  ".toList <:+: a ++ ' ' :: b ∧
    ((∀ pat ∈ rewritePatterns, ¬ pat <:+: a ++ ',' :: b) →
      normalize (a ++ List.replicate 2 ' ' ++ b) = some (a ++ ',' :: b)) := by
  have hfree : ∀ t ∈ [a, b], ' ' ∉ t := by
    intro t ht
    simp only [List.mem_cons, List.mem_singleton, List.not_mem_nil, or_false] at ht
    rcases ht with rfl | rfl
    · exact ha.2
    · exact hb.2
  have e2 : a ++ List.replicate 2 ' ' ++ b = "  ".toList.intercalate [a, b] := by
    rw [intercalate_two, intercalate_one]
    simp [List.replicate]
  have e1 : " ".toList.intercalate [a, b] = a ++ ' ' :: b := by
    rw [intercalate_two, intercalate_one]
    rfl
  have ec : ",".toList.intercalate [a, b] = a ++ ',' :: b := by
    rw [intercalate_two, intercalate_one]
    rfl
  have h1 : stringReplace (a ++ List.replicate 2 ' ' ++ b) "  ".toList " ".toList =
      some (a ++ ' ' :: b) := by
    rw [e2, stringReplace_join2 [a, b] hfree, e1]
  have h2 : stringReplace (a ++ ' ' :: b) " ".toList ",".toList = some (a ++ ',' :: b) := by
    rw [← e1, stringReplace_spaces [a, b] hfree, ec]
  refine ⟨h1, ?_, fun hpat => ?_⟩
  · intro h
    have hc := h.sublist.count_le ' '
    have hca : a.count ' ' = 0 := List.count_eq_zero.2 ha.2
    have hcb : b.count ' ' = 0 := List.count_eq_zero.2 hb.2
    have h2c : List.count ' ' "  ".toList = 2 := by decide
    rw [List.count_append, List.count_cons_self, hca, hcb, h2c] at hc
    omega
  · have p1 := stringReplace_noop (a ++ ',' :: b) ",Endpoint,Mapper".toList
      " Endpoint Mapper".toList (hpat _ (by simp [rewritePatterns]))
    have p2 := stringReplace_noop (a ++ ',' :: b) "Network,Time".toList
      "Network Time".toList (hpat _ (by simp [rewritePatterns]))
    have p3 := stringReplace_noop (a ++ ',' :: b) ",src,zone".toList
      ",src_zone".toList (hpat _ (by simp [rewritePatterns]))
    have p4 := stringReplace_noop (a ++ ',' :: b) ",dst,zone".toList
      ",dst_zone".toList (hpat _ (by simp [rewritePatterns]))
    simp only [normalize, h1, h2, p1, p2, p3, p4, Option.some_bind]

/-- Two spaces between the tokens `Network` and `Time`, and between `Jan` and
`5`: step 1 leaves one space in both, and `Jan  5` is normalized to `Jan,5`. -/
theorem two_spaces_one_delimiter_witness :
    stringReplace "Network  Time".toList "  ".toList " ".toList =
      some "Network Time".toList ∧
    ¬ "  ".toList <:+: "Network Time".toList ∧
    normalize "Jan  5".toList = some "Jan,5".toList :=
  ⟨(two_spaces_one_delimiter "Network".toList "Time".toList (by decide) (by decide)).1,
   (two_spaces_one_delimiter "Network".toList "Time".toList (by decide) (by decide)).2.1,
   (two_spaces_one_delimiter "Jan".toList "5".toList (by decide) (by decide)).2.2 (by decide)⟩

/-- C5. For non-empty space-free tokens, the line of the tokens joined by two
spaces and the line of the tokens joined by one space have the same normalized
line. -/
theorem double_spaced_same_as_single (toks : List Str) (h : ∀ t ∈ toks, t ≠ [] ∧ ' ' ∉ t) :
    ∃ ins, normalize ("  ".toList.intercalate toks) = some ins ∧
      normalize (" ".toList.intercalate toks) = some ins := by
  obtain ⟨ins, hins⟩ := normalize_total (" ".toList.intercalate toks)
  refine ⟨ins, ?_, hins⟩
  have h2 := stringReplace_join2 toks (fun t ht => (h t ht).2)
  have h1 := stringReplace_join1 toks h
  rw [← hins]
  simp only [normalize, h1, h2]

/-- C5, at the tokens `Jan`, `05`, `10:22:31`, `policy_id=14`. -/
theorem double_spaced_same_as_single_witness :
    ∃ ins, normalize "Jan  05  10:22:31  policy_id=14".toList = some ins ∧
      normalize "Jan 05 10:22:31 policy_id=14".toList = some ins :=
  double_spaced_same_as_single
    ["Jan".toList, "05".toList, "10:22:31".toList, "policy_id=14".toList] (by decide)

/-- C6. When the key first occurs at position `i`, `getField(line, key)` takes
the segment from `i` up to the next comma (or the end of the line) and returns what
follows the first `=` of that segment. So for `line = pre ++ k ++ "=" ++ v ++ rest`
with `k` free of `=` and `,`, `v` free of `,`, `rest` empty or starting with `,`,
and no occurrence of `k` starting before `pre` ends, the keys `k` and `k ++ "="`
both give `v`, whatever `rest` holds. -/
theorem getFieldStr_first_occurrence :
    (∀ (line key : Str) (i : Nat), find line key 0 = some i →
      getFieldStr line key = some (afterChar '=' (untilChar ',' (line.drop i)))) ∧
    (∀ (pre k v rest : Str), '=' ∉ k → ',' ∉ k → ',' ∉ v →
      (rest = [] ∨ ∃ r, rest = ',' :: r) →
      (∀ j, j < pre.length → ¬ k <+: (pre ++ (k ++ '=' :: (v ++ rest))).drop j) →
      getFieldStr (pre ++ (k ++ '=' :: (v ++ rest))) k = some v ∧
      getFieldStr (pre ++ (k ++ '=' :: (v ++ rest))) (k ++ ['=']) = some v) := by
  constructor
  · intro line key i h
    rw [getFieldStr_eq, h]
  · intro pre k v rest hke hkc hv hrest hfirst
    exact getFieldStr_at pre k v rest hke hkc hv hrest hfirst

/-- C6, at the line `Jan,src=10.1.1.5,src_port=4041,src=9.9.9.9` with the key
`src`, which first occurs at position 4. -/
theorem getFieldStr_first_occurrence_witness :
    find "Jan,src=10.1.1.5,src_port=4041,src=9.9.9.9".toList "src".toList 0 = some 4 ∧
    getFieldStr "Jan,src=10.1.1.5,src_port=4041,src=9.9.9.9".toList "src".toList =
      some "10.1.1.5".toList ∧
    getFieldStr "Jan,src=10.1.1.5,src_port=4041,src=9.9.9.9".toList "src=".toList =
      some "10.1.1.5".toList :=
  ⟨by rfl,
   (getFieldStr_first_occurrence.1 "Jan,src=10.1.1.5,src_port=4041,src=9.9.9.9".toList
      "src".toList 4 (by rfl)).trans (by rfl),
   (getFieldStr_first_occurrence.2 "Jan,".toList "src".toList "10.1.1.5".toList
      ",src_port=4041,src=9.9.9.9".toList (by decide) (by decide) (by decide)
      (Or.inr ⟨_, rfl⟩) (by decide)).2⟩

/-- C7. For every line and every index `i` not greater than the number of commas
of the line, `getField(line, i)` is the `i`-th element (from zero) of the line
split on `,`. -/
theorem getFieldInt_splitOn (line : Str) (i : Nat) (h : i ≤ line.count ',') :
    getFieldInt line i = (line.splitOn ',')[i]? := by
  rw [getFieldInt_eq]
  simp only [Int.toNat_ofNat]
  induction i generalizing line with
  | zero => rw [splitOn_eq]; simp
  | succ i ih =>
    have hm : ',' ∈ line := by
      apply List.count_pos_iff.1
      omega
    have hc := count_of_mem ',' line hm
    rw [Function.iterate_succ_apply, ih (afterChar ',' line) (by omega)]
    conv => rhs; rw [splitOn_eq]
    simp [hm]

/-- C7, at the line `Jan,05,10:22:31` and index 2. -/
theorem getFieldInt_splitOn_witness :
    2 ≤ ("Jan,05,10:22:31".toList).count ',' ∧
    getFieldInt "Jan,05,10:22:31".toList 2 = some "10:22:31".toList :=
  ⟨by decide, (getFieldInt_splitOn "Jan,05,10:22:31".toList 2 (by decide)).trans (by rfl)⟩

/-- C8 (the code at the failing input). The line `Jan` has no comma, so index 1
lies beyond its last field; `getField` returns the last token `Jan` and not the
empty string, and the record written for the raw line `Jan` repeats it in the Day
and Time columns. -/
theorem getFieldInt_beyond_last_field :
    ("Jan".toList).count ',' < 1 ∧
    getFieldInt "Jan".toList 1 = some "Jan".toList ∧
    processLine false false noDns Resolver.init "Jan".toList =
      some (some "Jan,Jan,Jan,,,,,,,,,".toList, Resolver.init) := by
  refine ⟨by decide, by rfl, by rfl⟩

/-- C9. When `key` does not occur in the line, `getField(line, key)` is the empty
string; so with resolution off a record is assembled all the same, of twelve
columns, in which the column of each of the nine keys that is absent from the
line is empty. -/
theorem getFieldStr_absent_key (line key : Str) (h : ¬ key <:+: line) :
    getFieldStr line key = some [] ∧
    ∀ (dns : Dns) (st : Resolver) (j : Nat), (j, key) ∈ keyedColumns →
      ∃ sout, assemble false false dns st line = some (sout, st) ∧
        (sout.splitOn ',').length = 12 ∧ (sout.splitOn ',')[j]? = some [] := by
  have hk : getFieldStr line key = some [] := by
    rw [getFieldStr_eq, (find_none_iff line key).2 h]
  refine ⟨hk, ?_⟩
  intro dns st j hj
  obtain ⟨cols, hcols, hlen, hfree, hrec⟩ := assemble_off dns st line
  have hsplit : ([','].intercalate cols).splitOn ',' = cols :=
    List.splitOn_intercalate cols ',' hfree (by intro e; simp [e] at hlen)
  refine ⟨_, hrec, by rw [hsplit, hlen], ?_⟩
  rw [hsplit]
  have hget : (columns line)[j]? = some (getFieldStr line key) := by
    simp only [keyedColumns, List.mem_cons, Prod.mk.injEq, List.mem_singleton,
      List.not_mem_nil, or_false] at hj
    rcases hj with h | h | h | h | h | h | h | h | h <;> obtain ⟨rfl, rfl⟩ := h <;> rfl
  rw [hcols, hk, List.getElem?_map] at hget
  cases hc : cols[j]? with
  | none => simp [hc] at hget
  | some c => simpa [hc] using hget

/-- C9, at the line `Jan,05,10:22:31,service=http`, which has no `policy_id`. -/
theorem getFieldStr_absent_key_witness :
    getFieldStr "Jan,05,10:22:31,service=http".toList "policy_id".toList = some [] ∧
    assemble false false noDns Resolver.init "Jan,05,10:22:31,service=http".toList =
      some ("Jan,05,10:22:31,,http,,,,,,,".toList, Resolver.init) :=
  ⟨(getFieldStr_absent_key "Jan,05,10:22:31,service=http".toList "policy_id".toList
      (by decide)).1, by rfl⟩

/-- C10. Whatever the cache and whatever the reverse lookups answer, a call of
`nslookup` for the address of the call just before it returns the same hostname
and leaves the cache, `list_size` and the number of lookups made as they were: it
is served by the scan of the cache. The two calls together make at most one
lookup. -/
theorem nslookup_twice (dns dns2 : Dns) (st : Resolver) (a : Option Str) :
    nslookup dns2 (nslookup dns st a).2 a = ((nslookup dns st a).1, (nslookup dns st a).2) ∧
    (nslookup dns2 (nslookup dns st a).2 a).2.lookups ≤ st.lookups + 1 := by
  cases a with
  | none => simp [nslookup]
  | some a =>
    cases hs : scanCache st.ipt_top a with
    | some h => simp [nslookup, hs]
    | none =>
      by_cases hsz : st.list_size > MAXIMUM_CACHED_HOSTNAMES
      · have hx : ¬ (0 : Int) > st.list_size + 1 := by
          unfold MAXIMUM_CACHED_HOSTNAMES at hsz
          omega
        simp [nslookup, hs, hsz, evictLoop, hx, scanCache]
      · simp [nslookup, hs, hsz, scanCache]

/-- C11 (the code at the failing input). From the empty cache, seventeen calls
for seventeen different addresses, each a miss. At the seventeenth `list_size` is
16, the eviction block is entered and removes nothing: the cache holds seventeen
entries, more than `MAXIMUM_CACHED_HOSTNAMES`. -/
theorem cache_exceeds_maximum :
    (["10.0.0.1", "10.0.0.2", "10.0.0.3", "10.0.0.4", "10.0.0.5", "10.0.0.6", "10.0.0.7",
      "10.0.0.8", "10.0.0.9", "10.0.0.10", "10.0.0.11", "10.0.0.12", "10.0.0.13",
      "10.0.0.14", "10.0.0.15", "10.0.0.16", "10.0.0.17"].map String.toList).Nodup ∧
    (nslookups noDns Resolver.init
      (["10.0.0.1", "10.0.0.2", "10.0.0.3", "10.0.0.4", "10.0.0.5", "10.0.0.6", "10.0.0.7",
        "10.0.0.8", "10.0.0.9", "10.0.0.10", "10.0.0.11", "10.0.0.12", "10.0.0.13",
        "10.0.0.14", "10.0.0.15", "10.0.0.16", "10.0.0.17"].map
          fun s => some s.toList)).ipt_top.length = 17 ∧
    (17 : Int) > MAXIMUM_CACHED_HOSTNAMES := by
  refine ⟨by decide, by rfl, by decide⟩

/-- C12. For an address `a` that has no entry in the cache: when the reverse
lookup fails `nslookup(a)` returns `a` and puts the entry `(a, a)` at the head of
the cache, when it succeeds with `h` it returns `h` and puts `(a, h)` there; and
after any further calls a call for `a` returns that same value from the cache,
with no lookup and no change of the cache. -/
theorem nslookup_miss_fallback (dns dns2 : Dns) (st : Resolver) (a : Str)
    (hmiss : scanCache st.ipt_top a = none) :
    (dns st.lookups a = none →
      nslookup dns st (some a) =
        (some a, { ipt_top := { ip_address := a, hostname := a } :: st.ipt_top,
                   list_size := st.list_size + 1, lookups := st.lookups + 1 })) ∧
    (∀ h, dns st.lookups a = some h →
      nslookup dns st (some a) =
        (some h, { ipt_top := { ip_address := a, hostname := h } :: st.ipt_top,
                   list_size := st.list_size + 1, lookups := st.lookups + 1 })) ∧
    (∀ bs : List (Option Str),
      nslookup dns2 (nslookups dns2 (nslookup dns st (some a)).2 bs) (some a) =
        ((nslookup dns st (some a)).1, nslookups dns2 (nslookup dns st (some a)).2 bs)) := by
  have hm := nslookup_miss dns st a hmiss
  refine ⟨fun h => by rw [hm, h]; rfl, fun h hh => by rw [hm, hh]; rfl, fun bs => ?_⟩
  have hs : scanCache (nslookup dns st (some a)).2.ipt_top a =
      some ((dns st.lookups a).getD a) := by
    rw [hm]
    simp [scanCache]
  have hs2 := scanCache_nslookups dns2 bs _ a _ hs
  rw [nslookup_hit dns2 _ a _ hs2, hm]

/-- C12, at the empty cache, the address `10.1.1.5` and a lookup that fails. -/
theorem nslookup_miss_fallback_witness :
    nslookup noDns Resolver.init (some "10.1.1.5".toList) =
      (some "10.1.1.5".toList,
        { ipt_top := [{ ip_address := "10.1.1.5".toList, hostname := "10.1.1.5".toList }],
          list_size := 1, lookups := 1 }) :=
  (nslookup_miss_fallback noDns noDns Resolver.init "10.1.1.5".toList rfl).1 rfl

/-- C13. For a normalized line whose `dst=` value `v` is shorter than fifty
characters, a cache without entry for `v` and a reverse lookup of `v` that
returns `h`: with `resolve_dst` on and `resolve_src` off the record is the record
made with both flags off, but for its eleventh column, which is `h` and not `v`;
the lookup leaves the entry `(v, h)` at the head of the cache. -/
theorem assemble_resolve_dst (dns : Dns) (st : Resolver) (ins v h : Str)
    (hv : getFieldStr ins "dst=".toList = some v) (hlen : v.length < 50)
    (hmiss : scanCache st.ipt_top v = none) (hdns : dns st.lookups v = some h) :
    ∃ cols : List Str, cols.length = 12 ∧ cols[10]? = some v ∧
      assemble false false dns st ins = some ([','].intercalate cols, st) ∧
      assemble false true dns st ins =
        some ([','].intercalate (cols.set 10 h),
          { ipt_top := { ip_address := v, hostname := h } :: st.ipt_top,
            list_size := st.list_size + 1, lookups := st.lookups + 1 }) := by
  obtain ⟨f0, h0, -⟩ := getFieldInt_comma_free ins 0
  obtain ⟨f1, h1, -⟩ := getFieldInt_comma_free ins 1
  obtain ⟨f2, h2, -⟩ := getFieldInt_comma_free ins 2
  obtain ⟨f3, h3, -⟩ := getFieldStr_comma_free ins "policy_id".toList
  obtain ⟨f4, h4, -⟩ := getFieldStr_comma_free ins "service".toList
  obtain ⟨f5, h5, -⟩ := getFieldStr_comma_free ins "src_zone".toList
  obtain ⟨f6, h6, -⟩ := getFieldStr_comma_free ins "dst_zone".toList
  obtain ⟨f7, h7, -⟩ := getFieldStr_comma_free ins "action".toList
  obtain ⟨f8, h8, -⟩ := getFieldStr_comma_free ins "src=".toList
  obtain ⟨f9, h9, -⟩ := getFieldStr_comma_free ins "src_port".toList
  obtain ⟨f11, h11, -⟩ := getFieldStr_comma_free ins "dst_port".toList
  have hn := nslookup_miss dns st v hmiss
  rw [hdns] at hn
  refine ⟨[f0, f1, f2, f3, f4, f5, f6, f7, f8, f9, v, f11], rfl, rfl, ?_, ?_⟩
  · simp only [assemble, assembleHead, h0, h1, h2, h3, h4, h5, h6, h7, h8, h9, hv, h11,
      Option.some_bind, addressColumn, addColumn, delim, intercalate_cons_cons,
      intercalate_single, List.append_assoc, List.singleton_append, List.cons_append,
      List.nil_append, Bool.false_eq_true, if_false]
  · simp only [assemble, assembleHead, h0, h1, h2, h3, h4, h5, h6, h7, h8, h9, hv, h11,
      Option.some_bind, addressColumn, copyToBuf, hlen, hn, Option.getD_some, addColumn, delim,
      List.set_cons_succ, List.set_cons_zero, intercalate_cons_cons,
      intercalate_single, List.append_assoc, List.singleton_append, List.cons_append,
      List.nil_append, Bool.false_eq_true, if_false, if_true]

set_option maxRecDepth 20000 in
/-- C13, at the normalized line of scenario 1, the empty cache and a lookup that
answers `edge.example.com` for `8.8.8.8`. -/
theorem assemble_resolve_dst_witness :
    (∃ cols : List Str, cols.length = 12 ∧ cols[10]? = some "8.8.8.8".toList ∧
      assemble false false (fun _ _ => some "edge.example.com".toList) Resolver.init
          "Jan,05,10:22:31,policy_id=14,service=http,src_zone=trust,dst_zone=untrust,action=Permit,src=10.1.1.5,src_port=4041,dst=8.8.8.8,dst_port=80".toList =
        some ([','].intercalate cols, Resolver.init) ∧
      assemble false true (fun _ _ => some "edge.example.com".toList) Resolver.init
          "Jan,05,10:22:31,policy_id=14,service=http,src_zone=trust,dst_zone=untrust,action=Permit,src=10.1.1.5,src_port=4041,dst=8.8.8.8,dst_port=80".toList =
        some ([','].intercalate (cols.set 10 "edge.example.com".toList),
          { ipt_top := [{ ip_address := "8.8.8.8".toList,
                          hostname := "edge.example.com".toList }],
            list_size := 1, lookups := 1 })) ∧
    assemble false true (fun _ _ => some "edge.example.com".toList) Resolver.init
        "Jan,05,10:22:31,policy_id=14,service=http,src_zone=trust,dst_zone=untrust,action=Permit,src=10.1.1.5,src_port=4041,dst=8.8.8.8,dst_port=80".toList =
      some ("Jan,05,10:22:31,14,http,trust,untrust,Permit,10.1.1.5,4041,edge.example.com,80".toList,
        { ipt_top := [{ ip_address := "8.8.8.8".toList,
                        hostname := "edge.example.com".toList }],
          list_size := 1, lookups := 1 }) :=
  ⟨assemble_resolve_dst (fun _ _ => some "edge.example.com".toList) Resolver.init
    "Jan,05,10:22:31,policy_id=14,service=http,src_zone=trust,dst_zone=untrust,action=Permit,src=10.1.1.5,src_port=4041,dst=8.8.8.8,dst_port=80".toList
    "8.8.8.8".toList "edge.example.com".toList (by rfl) (by decide) rfl rfl, by rfl⟩

/-- C14 (the code at the failing input). Three input lines, the second of them
empty: `in[0]` is NUL at the empty line and the run ends there (`exit(0)`), with
one row written. The third line is not a statistics line, and processed on its
own it gives a row; in the run it is never converted. -/
theorem run_ends_at_empty_line :
    run false false noDns Resolver.init ["Jan 05".toList, [], "Feb 06".toList] =
      some ["Jan,05,05,,,,,,,,,".toList] ∧
    processLine false false noDns Resolver.init "Feb 06".toList =
      some (some "Feb,06,06,,,,,,,,,".toList, Resolver.init) := by
  refine ⟨by rfl, by rfl⟩

/-- C18. For an index `i` not less than the number of commas of the line,
`getField(line, i)` is the last token: the whole line when it has no comma, the
text after the last comma otherwise. So on a line with fewer than three tokens
(at most one comma) the Day and Time columns, indices 1 and 2, both hold the last
token. -/
theorem getFieldInt_last_token :
    (∀ (line : Str) (i : Nat), ',' ∉ line → getFieldInt line i = some line) ∧
    (∀ (x y : Str) (i : Nat), ',' ∉ y → (x ++ ',' :: y).count ',' ≤ i →
      getFieldInt (x ++ ',' :: y) i = some y) ∧
    (∀ line : Str, line.count ',' < 2 →
      getFieldInt line 1 = getFieldInt line 2 ∧
      (columns line)[1]? = some (getFieldInt line 1) ∧
      (columns line)[2]? = some (getFieldInt line 1)) := by
  have p1 : ∀ (line : Str) (i : Nat), ',' ∉ line → getFieldInt line i = some line := by
    intro line i h
    rw [getFieldInt_eq]
    simp only [Int.toNat_ofNat]
    rw [iterate_afterChar_of_not_mem ',' i line h, untilChar_of_not_mem ',' line h]
  have p2 : ∀ (x y : Str) (i : Nat), ',' ∉ y → (x ++ ',' :: y).count ',' ≤ i →
      getFieldInt (x ++ ',' :: y) i = some y := by
    intro x y i hy hi
    rw [getFieldInt_eq]
    simp only [Int.toNat_ofNat]
    rw [iterate_afterChar_last ',' i x y hy hi, untilChar_of_not_mem ',' y hy]
  refine ⟨p1, p2, ?_⟩
  intro line hc
  have h12 : getFieldInt line 1 = getFieldInt line 2 := by
    by_cases hm : ',' ∈ line
    · obtain ⟨u, v, hu, rfl⟩ := exists_split ',' line hm
      have hv : ',' ∉ v := by
        intro hv
        have := List.count_pos_iff.2 hv
        simp only [List.count_append, List.count_cons_self, List.count_eq_zero.2 hu] at hc
        omega
      have hcount : (u ++ ',' :: v).count ',' ≤ 1 := by omega
      rw [show ((1 : Int) = ((1 : Nat) : Int)) from rfl, p2 u v 1 hv hcount,
        show ((2 : Int) = ((2 : Nat) : Int)) from rfl, p2 u v 2 hv (by omega)]
    · rw [show ((1 : Int) = ((1 : Nat) : Int)) from rfl, p1 line 1 hm,
        show ((2 : Int) = ((2 : Nat) : Int)) from rfl, p1 line 2 hm]
  exact ⟨h12, rfl, by rw [h12]; rfl⟩

/-- C18, at the line `Jan,05` and the indices 1, 2 and 7. -/
theorem getFieldInt_last_token_witness :
    getFieldInt "Jan,05".toList 1 = some "05".toList ∧
    getFieldInt "Jan,05".toList 2 = some "05".toList ∧
    getFieldInt "Jan,05".toList 7 = some "05".toList :=
  ⟨getFieldInt_last_token.2.1 "Jan".toList "05".toList 1 (by decide) (by decide),
   getFieldInt_last_token.2.1 "Jan".toList "05".toList 2 (by decide) (by decide),
   getFieldInt_last_token.2.1 "Jan".toList "05".toList 7 (by decide) (by decide)⟩

/-- C19. When the segment from the first occurrence of the key up to the next
comma (or the end of the line) holds no `=`, `getField(line, key)` returns that
whole segment and not the empty string; the segment starts with the key when the
key has no comma. -/
theorem getFieldStr_without_eq (line key : Str) (i : Nat) (hfind : find line key 0 = some i)
    (hno : '=' ∉ untilChar ',' (line.drop i)) :
    getFieldStr line key = some (untilChar ',' (line.drop i)) ∧
    (',' ∉ key → key <+: untilChar ',' (line.drop i)) := by
  constructor
  · rw [getFieldStr_eq, hfind]
    simp only [afterChar_of_not_mem '=' _ hno]
  · intro hk
    obtain ⟨rest, hrest⟩ := (find_some line key 0 i hfind).2.2
    rw [← hrest, untilChar_append_of_not_mem ',' key rest hk]
    exact List.prefix_append _ _

/-- C19, at the line `a,service,b` and the key `service`. -/
theorem getFieldStr_without_eq_witness :
    getFieldStr "a,service,b".toList "service".toList = some "service".toList :=
  (getFieldStr_without_eq "a,service,b".toList "service".toList 2 (by rfl) (by decide)).1

/-- C20. The eviction loop removes nothing: entered with `x = 0` and a
`list_size` that is not negative (in `nslookup` it is above 16), its guard is
false at every node and `x` stays `0`. So a call that finds its address, or gets
`NULL`, leaves the cache as it is, a miss puts one entry before the unchanged
list, and after any run of calls from the empty cache the number of entries,
`list_size` and the number of misses so far are equal. -/
theorem cache_never_shrinks (dns : Dns) :
    (∀ (list_size : Int) (l : List ip_table), 0 ≤ list_size → evictLoop list_size 0 l = l) ∧
    (∀ (st : Resolver) (a h : Str), scanCache st.ipt_top a = some h →
      (nslookup dns st (some a)).2 = st) ∧
    (∀ st : Resolver, (nslookup dns st none).2 = st) ∧
    (∀ (st : Resolver) (a : Str), scanCache st.ipt_top a = none →
      ∃ h, (nslookup dns st (some a)).2.ipt_top =
        { ip_address := a, hostname := h } :: st.ipt_top) ∧
    (∀ as : List (Option Str),
      ((nslookups dns Resolver.init as).ipt_top.length : Int) =
        (nslookups dns Resolver.init as).list_size ∧
      (nslookups dns Resolver.init as).list_size = missCount dns Resolver.init as) := by
  refine ⟨fun ls l h => evictLoop_zero ls h l, ?_, fun st => rfl, ?_, ?_⟩
  · intro st a h hs
    rw [nslookup_hit dns st a h hs]
  · intro st a hs
    exact ⟨_, by rw [nslookup_miss dns st a hs]⟩
  · intro as
    obtain ⟨h1, h2, -⟩ := nslookups_count dns as Resolver.init
    have h1b : (nslookups dns Resolver.init as).ipt_top.length =
        missCount dns Resolver.init as := h1.trans (Nat.zero_add _)
    have h2b : (nslookups dns Resolver.init as).list_size =
        missCount dns Resolver.init as := h2.trans (Int.zero_add _)
    exact ⟨by rw [h1b, h2b], h2b⟩

/-- C17 as stated fails. The tokens `Network` and `Time` with one space between
them: the run of one space is kept by step 1 and becomes one comma in step 2, and
the repair of `Network,Time` then puts the space back, so the normalized line is
not `Network,Time`. -/
theorem network_time_keeps_its_space :
    stringReplace ("Network".toList ++ List.replicate 1 ' ' ++ "Time".toList)
      "  ".toList " ".toList = some "Network Time".toList ∧
    normalize ("Network".toList ++ List.replicate 1 ' ' ++ "Time".toList) =
      some "Network Time".toList ∧
    normalize ("Network".toList ++ List.replicate 1 ' ' ++ "Time".toList) ≠
      some ("Network".toList ++ List.replicate ((1 + 1) / 2) ',' ++ "Time".toList) := by
  refine ⟨by rfl, by rfl, by decide⟩

/-- C17, amended. For `n` spaces (`n ≥ 1`, and `n = 0` as well) between non-empty space-free tokens `a` and
`b`, the single pass of step 1 leaves `(n + 1) / 2` spaces, the ceiling of `n / 2`;
and when none of the four repair patterns occurs in `a`, that many commas, `b`,
that is the normalized line. -/
theorem spaces_run_halved (a b : Str) (n : Nat) (ha : a ≠ [] ∧ ' ' ∉ a)
    (hb : b ≠ [] ∧ ' ' ∉ b) :
    stringReplace (a ++ List.replicate n ' ' ++ b) "  ".toList " ".toList =
      some (a ++ List.replicate ((n + 1) / 2) ' ' ++ b) ∧
    ((∀ pat ∈ rewritePatterns, ¬ pat <:+: a ++ List.replicate ((n + 1) / 2) ',' ++ b) →
      normalize (a ++ List.replicate n ' ' ++ b) =
        some (a ++ List.replicate ((n + 1) / 2) ',' ++ b)) := by
  have h1 := stringReplace_space_run a b n ha.2 hb
  refine ⟨h1, fun hpat => ?_⟩
  have h2 := stringReplace_spaces_run a b ((n + 1) / 2) ha.2 hb.2
  have p1 := stringReplace_noop _ ",Endpoint,Mapper".toList " Endpoint Mapper".toList
    (hpat _ (by simp [rewritePatterns]))
  have p2 := stringReplace_noop _ "Network,Time".toList "Network Time".toList
    (hpat _ (by simp [rewritePatterns]))
  have p3 := stringReplace_noop _ ",src,zone".toList ",src_zone".toList
    (hpat _ (by simp [rewritePatterns]))
  have p4 := stringReplace_noop _ ",dst,zone".toList ",dst_zone".toList
    (hpat _ (by simp [rewritePatterns]))
  simp only [normalize, h1, h2, p1, p2, p3, p4, Option.some_bind]

/-- C17 amended, at the tokens `Jan` and `5` with five spaces between them. -/
theorem spaces_run_halved_witness :
    stringReplace "Jan     5".toList "  ".toList " ".toList = some "Jan   5".toList ∧
    normalize "Jan     5".toList = some "Jan,,,5".toList :=
  ⟨(spaces_run_halved "Jan".toList "5".toList 5 (by decide) (by decide)).1,
   (spaces_run_halved "Jan".toList "5".toList 5 (by decide) (by decide)).2 (by decide)⟩

/-- C16 as stated fails. With `pre = "a "`, `x = "MS-RPC"` and
`post = " Endpoint Mapper y"` every condition of the claim holds, but the repair
of `,Endpoint,Mapper` also joins the words that follow the service: the segment
`service=MS-RPC Endpoint Mapper` is followed by a space, not by a comma, and the
key `service` gives `MS-RPC Endpoint Mapper Endpoint Mapper`. -/
theorem endpoint_mapper_twice :
    ¬ "  ".toList <:+: "a service=MS-RPC Endpoint Mapper Endpoint Mapper y".toList ∧
    (∀ w ∈ ["service".toList, "Endpoint".toList], ¬ w <:+: "a ".toList) ∧
    normalize ("a ".toList ++ ("service=".toList ++ "MS-RPC".toList ++
        " Endpoint Mapper".toList) ++ " Endpoint Mapper y".toList) =
      some "a,service=MS-RPC Endpoint Mapper Endpoint Mapper,y".toList ∧
    getFieldStr "a,service=MS-RPC Endpoint Mapper Endpoint Mapper,y".toList
        "service".toList =
      some "MS-RPC Endpoint Mapper Endpoint Mapper".toList ∧
    getFieldStr "a,service=MS-RPC Endpoint Mapper Endpoint Mapper,y".toList
        "service".toList ≠
      some ("MS-RPC".toList ++ " Endpoint Mapper".toList) := by
  refine ⟨by decide, by decide, by rfl, by rfl, by decide⟩

/-- C16, amended. For a raw single-spaced line
`pre ++ "service=" ++ x ++ " Endpoint Mapper" ++ post`, where `x` is non-empty
and has no space, comma or `=`, `post` is empty or starts with a space, `pre`
holds neither `service` nor `Endpoint`, and what follows the service does not
itself begin with the two words `Endpoint Mapper` (after step 2 `post` does not
start with `,Endpoint,Mapper`): the normalized line is
`P ++ "service=" ++ x ++ " Endpoint Mapper" ++ Q` with `P` as long as `pre` and
`Q` empty or starting with a comma, the segment has no comma, and the key
`service` gives `x ++ " Endpoint Mapper"`. -/
theorem endpoint_mapper_service (pre x post : Str)
    (hsingle : ¬ "  ".toList <:+:
      pre ++ ("service=".toList ++ x ++ " Endpoint Mapper".toList) ++ post)
    (hx : x ≠ [] ∧ ' ' ∉ x ∧ ',' ∉ x ∧ '=' ∉ x)
    (hpost : post = [] ∨ ∃ p, post = ' ' :: p)
    (hpre : ∀ w ∈ ["service".toList, "Endpoint".toList], ¬ w <:+: pre)
    (hnext : ¬ ",Endpoint,Mapper".toList <+: commaForm post) :
    ∃ P Q, normalize (pre ++ ("service=".toList ++ x ++ " Endpoint Mapper".toList) ++ post) =
        some (P ++ ("service=".toList ++ x ++ " Endpoint Mapper".toList) ++ Q) ∧
      P.length = pre.length ∧ (Q = [] ∨ ∃ q, Q = ',' :: q) ∧
      ',' ∉ "service=".toList ++ x ++ " Endpoint Mapper".toList ∧
      getFieldStr (P ++ ("service=".toList ++ x ++ " Endpoint Mapper".toList) ++ Q)
        "service".toList = some (x ++ " Endpoint Mapper".toList) := by
  obtain ⟨-, hxs, hxc, hxe⟩ := hx
  have hQ : commaLed (commaForm post) := commaForm_post post hpost
  have hform : commaForm (pre ++ ("service=".toList ++ x ++ " Endpoint Mapper".toList) ++ post) =
      commaForm pre ++ ("service=".toList ++ (x ++ (",Endpoint,Mapper".toList ++
        commaForm post))) := by
    rw [commaForm_append, commaForm_append, commaForm_append, commaForm_append,
      commaForm_space_free x hxs]
    simp [commaForm]
  have hn := normalize_single _ hsingle
  rw [hform] at hn
  have hr := repairs_service (commaForm pre) x (commaForm post) hxc hQ hnext
  unfold repairs at hr
  rw [hr] at hn
  have hQ6 := repairs_led (commaForm post) hQ hnext
  have hmap := map_hard_repairs pre
  have hlen : (fixDstZone (fixSrcZone (fixNetwork (fixEndpoint (commaForm pre))))).length =
      pre.length := by
    have := congrArg List.length hmap
    simpa using this
  have hcomma : ',' ∉ "service=".toList ++ x ++ " Endpoint Mapper".toList := by
    simp only [List.mem_append, not_or]
    exact ⟨⟨by decide, hxc⟩, by decide⟩
  have hkey : ¬ "service".toList <:+:
      fixDstZone (fixSrcZone (fixNetwork (fixEndpoint (commaForm pre)))) := by
    intro h
    obtain ⟨v, hv, hin⟩ := occ_soft _ pre _ hmap h
    have hv2 : v = "service".toList := by
      have : softForms ("service".toList.map hard) = ["service".toList] := by decide
      rw [this] at hv
      simpa using hv
    exact hpre _ (by simp) (hv2 ▸ hin)
  refine ⟨fixDstZone (fixSrcZone (fixNetwork (fixEndpoint (commaForm pre)))),
    repairs (commaForm post), ?_, hlen, hQ6, hcomma, ?_⟩
  · rw [hn]
    unfold repairs
    simp
  · have hfirst := first_of_noCross "service".toList _
      ("service".toList ++ (("=".toList ++ (x ++ " Endpoint Mapper".toList)) ++
        repairs (commaForm post))) hkey
      (noCross_of_head _ _ "service".toList _ (by decide))
    have hg := getFieldStr_at_seg
      (fixDstZone (fixSrcZone (fixNetwork (fixEndpoint (commaForm pre)))))
      "service".toList ("=".toList ++ (x ++ " Endpoint Mapper".toList))
      (repairs (commaForm post)) (by
        simp only [List.mem_append, not_or]
        exact ⟨by decide, by decide, hxc, by decide⟩) hQ6 hfirst
    have e1 : fixDstZone (fixSrcZone (fixNetwork (fixEndpoint (commaForm pre)))) ++
        ("service=".toList ++ x ++ " Endpoint Mapper".toList) ++ repairs (commaForm post) =
        fixDstZone (fixSrcZone (fixNetwork (fixEndpoint (commaForm pre)))) ++
        ("service".toList ++ ("=".toList ++ (x ++ " Endpoint Mapper".toList) ++
          repairs (commaForm post))) := by simp
    rw [e1, hg]
    rfl

/-- C16 amended, at `a service=MS-RPC Endpoint Mapper y`. -/
theorem endpoint_mapper_service_witness :
    ∃ P Q, normalize ("a ".toList ++ ("service=".toList ++ "MS-RPC".toList ++
          " Endpoint Mapper".toList) ++ " y".toList) =
        some (P ++ ("service=".toList ++ "MS-RPC".toList ++
          " Endpoint Mapper".toList) ++ Q) ∧
      P.length = "a ".toList.length ∧ (Q = [] ∨ ∃ q, Q = ',' :: q) ∧
      ',' ∉ "service=".toList ++ "MS-RPC".toList ++ " Endpoint Mapper".toList ∧
      getFieldStr (P ++ ("service=".toList ++ "MS-RPC".toList ++
          " Endpoint Mapper".toList) ++ Q)
        "service".toList = some ("MS-RPC".toList ++ " Endpoint Mapper".toList) :=
  endpoint_mapper_service "a ".toList "MS-RPC".toList " y".toList (by decide)
    (by decide) (Or.inr ⟨_, rfl⟩) (by decide) (by decide)

/-- C15 as stated fails, in four ways; in each one every condition of the claim
holds. (1) `post = " Endpoint Mapper"`: the repair of `,Endpoint,Mapper` joins
the two words to the destination zone, and the key `dst_zone` gives
`Untrust Endpoint Mapper`, not `Untrust`. (2) `dz = "Network"` and
`post = " Time"`: the repair of `Network,Time` joins them, and the key gives
`Network Time`. (3) `sz = "dst_zone"`: the key `dst_zone` is found first in the
value of the source zone and gives `dst_zone`, not `b`. (4) `pre = "x,src,zone=q"`
holds none of the four texts the claim excludes, but the repair of `,src,zone`
makes a key `src_zone` of it, which is found first and gives `q`, not `a`. -/
theorem zone_repair_fails :
    (∀ raw ∈ ["x src zone=Trust dst zone=Untrust Endpoint Mapper".toList,
        "x src zone=a dst zone=Network Time".toList, "x src zone=dst_zone dst zone=b".toList,
        "x,src,zone=q src zone=a dst zone=b".toList], ¬ "  ".toList <:+: raw) ∧
    (∀ w ∈ ["src_zone".toList, "dst_zone".toList, "src zone".toList, "dst zone".toList],
        ¬ w <:+: "x".toList) ∧
    (normalize ("x".toList ++ " src zone=".toList ++ "Trust".toList ++ " dst zone=".toList ++
        "Untrust".toList ++ " Endpoint Mapper".toList) =
        some "x,src_zone=Trust,dst_zone=Untrust Endpoint Mapper".toList ∧
      getFieldStr "x,src_zone=Trust,dst_zone=Untrust Endpoint Mapper".toList
        "dst_zone".toList = some "Untrust Endpoint Mapper".toList ∧
      "Untrust Endpoint Mapper".toList ≠ "Untrust".toList) ∧
    (normalize ("x".toList ++ " src zone=".toList ++ "a".toList ++ " dst zone=".toList ++
        "Network".toList ++ " Time".toList) =
        some "x,src_zone=a,dst_zone=Network Time".toList ∧
      getFieldStr "x,src_zone=a,dst_zone=Network Time".toList "dst_zone".toList =
        some "Network Time".toList ∧
      "Network Time".toList ≠ "Network".toList) ∧
    (normalize ("x".toList ++ " src zone=".toList ++ "dst_zone".toList ++
        " dst zone=".toList ++ "b".toList ++ []) =
        some "x,src_zone=dst_zone,dst_zone=b".toList ∧
      getFieldStr "x,src_zone=dst_zone,dst_zone=b".toList "dst_zone".toList =
        some "dst_zone".toList ∧
      "dst_zone".toList ≠ "b".toList) ∧
    ((∀ w ∈ ["src_zone".toList, "dst_zone".toList, "src zone".toList, "dst zone".toList],
        ¬ w <:+: "x,src,zone=q".toList) ∧
      normalize ("x,src,zone=q".toList ++ " src zone=".toList ++ "a".toList ++
        " dst zone=".toList ++ "b".toList ++ []) =
        some "x,src_zone=q,src_zone=a,dst_zone=b".toList ∧
      getFieldStr "x,src_zone=q,src_zone=a,dst_zone=b".toList "src_zone".toList =
        some "q".toList ∧
      "q".toList ≠ "a".toList) := by
  refine ⟨by decide, by decide, ⟨by rfl, by rfl, by decide⟩, ⟨by rfl, by rfl, by decide⟩,
    ⟨by rfl, by rfl, by decide⟩, ⟨by decide, by rfl, by rfl, by decide⟩⟩

/-- C15, amended. For a raw single-spaced line
`pre ++ " src zone=" ++ sz ++ " dst zone=" ++ dz ++ post`, where `sz` and `dz`
have no space, comma or `=`, `post` is empty or starts with a space, and `pre`
holds none of `src_zone`, `dst_zone`, `src zone`, `dst zone`, and moreover
`pre` holds neither `src,zone` nor `dst,zone`, `sz` does not hold `dst_zone`,
what follows `dz` does not begin with the two words `Endpoint Mapper` (after
step 2 `post` does not start with `,Endpoint,Mapper`), and it is not so that `dz`
ends with `Network` while `Time` follows: the normalized line holds
`",src_zone=" ++ sz` and `",dst_zone=" ++ dz`, and the keys `src_zone` and
`dst_zone` give `sz` and `dz`. -/
theorem zone_repair (pre sz dz post : Str)
    (hsingle : ¬ "  ".toList <:+:
      pre ++ " src zone=".toList ++ sz ++ " dst zone=".toList ++ dz ++ post)
    (hsz : ' ' ∉ sz ∧ ',' ∉ sz ∧ '=' ∉ sz) (hdz : ' ' ∉ dz ∧ ',' ∉ dz ∧ '=' ∉ dz)
    (hpost : post = [] ∨ ∃ p, post = ' ' :: p)
    (hpre : ∀ w ∈ ["src_zone".toList, "dst_zone".toList, "src zone".toList,
      "dst zone".toList, "src,zone".toList, "dst,zone".toList], ¬ w <:+: pre)
    (hszd : ¬ "dst_zone".toList <:+: sz)
    (hnext : ¬ ",Endpoint,Mapper".toList <+: commaForm post)
    (htime : ¬ ("Network".toList <:+ dz ∧ ",Time".toList <+: commaForm post)) :
    ∃ N, normalize (pre ++ " src zone=".toList ++ sz ++ " dst zone=".toList ++ dz ++ post) =
        some N ∧
      (",src_zone=".toList ++ sz) <:+: N ∧ (",dst_zone=".toList ++ dz) <:+: N ∧
      getFieldStr N "src_zone".toList = some sz ∧
      getFieldStr N "dst_zone".toList = some dz := by
  obtain ⟨hszs, hszc, hsze⟩ := hsz
  obtain ⟨hdzs, hdzc, hdze⟩ := hdz
  have hQ : commaLed (commaForm post) := commaForm_post post hpost
  have hform : commaForm
      (pre ++ " src zone=".toList ++ sz ++ " dst zone=".toList ++ dz ++ post) =
      commaForm pre ++ (",src,zone=".toList ++ (sz ++ (",dst,zone=".toList ++
        (dz ++ commaForm post)))) := by
    rw [commaForm_append, commaForm_append, commaForm_append, commaForm_append,
      commaForm_append, commaForm_space_free sz hszs, commaForm_space_free dz hdzs]
    simp [commaForm]
  have hn := normalize_single _ hsingle
  rw [hform] at hn
  have hr := repairs_zones (commaForm pre) sz dz (commaForm post) hszc hdzc hQ hnext htime
  unfold repairs at hr
  rw [hr] at hn
  have hQ6 := repairs_led (commaForm post) hQ hnext
  unfold repairs at hQ6
  have hmap := map_hard_repairs pre
  generalize fixDstZone (fixSrcZone (fixNetwork (fixEndpoint (commaForm pre)))) = P6
    at hn hmap
  generalize fixDstZone (fixSrcZone (fixNetwork (fixEndpoint (commaForm post)))) = Q6
    at hn hQ6
  have hsrc : ¬ "src_zone".toList <:+: P6 := by
    intro h
    obtain ⟨v, hv, hin⟩ := occ_soft _ pre _ hmap h
    have e : softForms ("src_zone".toList.map hard) =
        ["src zone".toList, "src,zone".toList, "src_zone".toList] := by decide
    rw [e] at hv
    simp only [List.mem_cons, List.mem_singleton, List.not_mem_nil, or_false] at hv
    rcases hv with rfl | rfl | rfl
    · exact hpre _ (by decide) hin
    · exact hpre _ (by decide) hin
    · exact hpre _ (by decide) hin
  have hdst : ¬ "dst_zone".toList <:+: P6 := by
    intro h
    obtain ⟨v, hv, hin⟩ := occ_soft _ pre _ hmap h
    have e : softForms ("dst_zone".toList.map hard) =
        ["dst zone".toList, "dst,zone".toList, "dst_zone".toList] := by decide
    rw [e] at hv
    simp only [List.mem_cons, List.mem_singleton, List.not_mem_nil, or_false] at hv
    rcases hv with rfl | rfl | rfl
    · exact hpre _ (by decide) hin
    · exact hpre _ (by decide) hin
    · exact hpre _ (by decide) hin
  refine ⟨_, hn, ?_, ?_, ?_, ?_⟩
  · exact ⟨P6, ",dst_zone=".toList ++ (dz ++ Q6), by simp⟩
  · exact ⟨P6 ++ (",src_zone=".toList ++ sz), Q6, by simp⟩
  · have hfirst := first_after_comma P6 "src_zone".toList
      (("=".toList ++ sz) ++ (",dst_zone=".toList ++ (dz ++ Q6))) (by decide) hsrc
    have hg := getFieldStr_at_seg (P6 ++ [',']) "src_zone".toList ("=".toList ++ sz)
      (",dst_zone=".toList ++ (dz ++ Q6)) (by
        simp only [List.mem_append, not_or]
        exact ⟨by decide, by decide, hszc⟩) (Or.inr ⟨_, rfl⟩) hfirst
    have e1 : P6 ++ (",src_zone=".toList ++ (sz ++ (",dst_zone=".toList ++ (dz ++ Q6)))) =
        (P6 ++ [',']) ++ ("src_zone".toList ++ (("=".toList ++ sz) ++
          (",dst_zone=".toList ++ (dz ++ Q6)))) := by simp
    rw [e1, hg]
    have e2 : afterChar '=' ("src_zone".toList ++ ("=".toList ++ sz)) = sz := by
      simp [afterChar]
    rw [e2]
  · have hP : ¬ "dst_zone".toList <:+: P6 ++ (",src_zone=".toList ++ sz) := by
      intro h
      have h0 : "dst_zone".toList <:+: P6 ++ ',' :: ("src_zone".toList ++ '=' :: sz) := by
        simpa using h
      rcases occ_split ',' _ _ _ (by decide) h0 with h1 | h1
      · exact hdst h1
      · rcases occ_split '=' _ _ _ (by decide) h1 with h2 | h2
        · exact absurd h2 (by decide)
        · exact hszd h2
    have hfirst := first_after_comma (P6 ++ (",src_zone=".toList ++ sz)) "dst_zone".toList
      (("=".toList ++ dz) ++ Q6) (by decide) hP
    have hg := getFieldStr_at_seg ((P6 ++ (",src_zone=".toList ++ sz)) ++ [','])
      "dst_zone".toList ("=".toList ++ dz) Q6 (by
        simp only [List.mem_append, not_or]
        exact ⟨by decide, by decide, hdzc⟩) hQ6 hfirst
    have e1 : P6 ++ (",src_zone=".toList ++ (sz ++ (",dst_zone=".toList ++ (dz ++ Q6)))) =
        ((P6 ++ (",src_zone=".toList ++ sz)) ++ [',']) ++ ("dst_zone".toList ++
          (("=".toList ++ dz) ++ Q6)) := by simp
    rw [e1, hg]
    have e2 : afterChar '=' ("dst_zone".toList ++ ("=".toList ++ dz)) = dz := by
      simp [afterChar]
    rw [e2]

/-- C15 amended, at `x src zone=Trust dst zone=Untrust y`. -/
theorem zone_repair_witness :
    ∃ N, normalize ("x".toList ++ " src zone=".toList ++ "Trust".toList ++
          " dst zone=".toList ++ "Untrust".toList ++ " y".toList) = some N ∧
      (",src_zone=".toList ++ "Trust".toList) <:+: N ∧
      (",dst_zone=".toList ++ "Untrust".toList) <:+: N ∧
      getFieldStr N "src_zone".toList = some "Trust".toList ∧
      getFieldStr N "dst_zone".toList = some "Untrust".toList :=
  zone_repair "x".toList "Trust".toList "Untrust".toList " y".toList (by decide)
    (by decide) (by decide) (Or.inr ⟨_, rfl⟩) (by decide) (by decide) (by decide) (by decide)

end FwSyslog
